import Mathlib

/-!
Verification of the discopy rigid-diagram core and its quantum backend.

This file gives a shallow embedding of the data model and operations of
`discopy/rigid.py` and `discopy/quantum.py` and proves properties of the
embedded definitions.  Pure functions of the source are translated into
Lean functions; Python exceptions become `Option`/`Except` results.

The base modules `discopy/cat.py`, `discopy/monoidal.py` and
`discopy/tensor.py` are not part of the sources at hand; where an
operation of those modules is needed (sequential and parallel composition
of diagrams, the layer-scanning validity invariant, the interchange
rewrite, functor application on plain layers), it is modelled from the
specification of the system, and every such definition is marked with a
doc comment starting with `Modelled from the spec:`.
-/

namespace Discopy

/-- Simple pregroup object of `rigid.Ob`: a name together with an integer
winding number `z` (the adjoint level). -/
structure Ob where
  name : String
  z : Int
deriving DecidableEq, Repr

/-- Left adjoint of an object: decrement the winding number
(`rigid.Ob.l`). -/
def Ob.l (o : Ob) : Ob := ⟨o.name, o.z - 1⟩

/-- Right adjoint of an object: increment the winding number
(`rigid.Ob.r`). -/
def Ob.r (o : Ob) : Ob := ⟨o.name, o.z + 1⟩

/-- A pregroup type of `rigid.Ty` is a list of simple objects. -/
abbrev Ty := List Ob

/-- Left dual of a type: reverse the list and take left adjoints
pointwise (`rigid.Ty.l`). -/
def tyL (t : Ty) : Ty := t.reverse.map Ob.l

/-- Right dual of a type: reverse the list and take right adjoints
pointwise (`rigid.Ty.r`). -/
def tyR (t : Ty) : Ty := t.reverse.map Ob.r

end Discopy

namespace Discopy.Quantum

/-- Binary digits of `i`, most significant bit first, padded to `n`
digits.  This models the format-string `'{:0nb}'.format(i)` used by
`quantum.index2bitstring` for `i < 2 ^ n`. -/
def padbin : Nat → Nat → List Nat
  | 0, _ => []
  | n + 1, i => padbin n (i / 2) ++ [i % 2]

/-- Embeds `quantum.index2bitstring`: `none` models the `ValueError`
raised when `i >= 2 ** length`.  The source special-cases
`i = 0, length = 0` to the empty tuple, which coincides with
`padbin 0 0 = []`. -/
def index2bitstring (i len : Nat) : Option (List Nat) :=
  if 2 ^ len ≤ i then none else some (padbin len i)

/-- Helper for `bitstring2index`: the running sum
`value * 2 ^ position` over a list whose head has the given position,
mirroring `enumerate(bitstring[::-1])`. -/
def b2iGo : List Nat → Nat → Nat
  | [], _ => 0
  | v :: rest, k => v * 2 ^ k + b2iGo rest (k + 1)

/-- Embeds `quantum.bitstring2index`:
`sum(value * 2 ** i for i, value in enumerate(bitstring[::-1]))`. -/
def bitstring2index (bs : List Nat) : Nat := b2iGo bs.reverse 0

/-- Classical/quantum dimension pair of `quantum.CQ`.  A dimension
`Dim(n1, ..., nk)` is modelled as the list of its factors; the unit
dimension `Dim(1)` is the empty list. -/
structure CQ where
  classical : List Nat
  quantum : List Nat
deriving DecidableEq, Repr

/-- Purely classical dimension (`quantum.C`). -/
def C (dim : List Nat) : CQ := ⟨dim, []⟩

/-- Purely quantum dimension (`quantum.Q`). -/
def Q (dim : List Nat) : CQ := ⟨[], dim⟩

/-- Left dual of a `CQ` type: reverse both dimension lists
(`quantum.CQ.l`). -/
def CQ.l (t : CQ) : CQ := ⟨t.classical.reverse, t.quantum.reverse⟩

/-- Right dual of a `CQ` type: the source returns `self.l`
(`quantum.CQ.r`). -/
def CQ.r (t : CQ) : CQ := t.l

/-- The two generating objects of `quantum.BitsAndQubits`. -/
inductive BQ where
  | bit
  | qubit
deriving DecidableEq, Repr

/-- A `BitsAndQubits` type is a list over the two generators. -/
abbrev BQTy := List BQ

/-- Left dual in `BitsAndQubits`: reverse the object list, no change of
objects (`quantum.BitsAndQubits.l`). -/
def bqL (t : BQTy) : BQTy := t.reverse

/-- Right dual in `BitsAndQubits`: the source returns `self.l`
(`quantum.BitsAndQubits.r`). -/
def bqR (t : BQTy) : BQTy := bqL t

/-- Classical-quantum map of `quantum.CQMap`: domain, codomain and the
underlying array, kept as a flat list in row-major (C) order exactly as
the nested comprehensions of the source produce it. -/
structure CQMap where
  dom : CQ
  cod : CQ
  array : List Int
deriving DecidableEq, Repr

/-- Embeds `quantum.CQMap.measure`.  The empty dimension gives the
scalar `1`; a single factor gives the 3-index (destructive) or 5-index
(non-destructive) Kronecker-delta array built by the comprehensions of
the source.  The multi-factor branch of the source recurses through
`CQMap.tensor`, whose contraction is performed by `discopy.tensor`
(outside the sources at hand); it is left unmodelled as `none`. -/
def CQMap.measure (dim : List Nat) (destructive : Bool) : Option CQMap :=
  match dim with
  | [] => some ⟨⟨[], []⟩, ⟨[], []⟩, [1]⟩
  | [n] =>
    if destructive then
      some ⟨Q [n], C [n],
        (List.range n).flatMap fun i =>
          (List.range n).flatMap fun j =>
            (List.range n).map fun k =>
              if i = j ∧ j = k then (1 : Int) else 0⟩
    else
      some ⟨Q [n], ⟨[n], [n]⟩,
        (List.range n).flatMap fun i =>
          (List.range n).flatMap fun j =>
            (List.range n).flatMap fun k =>
              (List.range n).flatMap fun l =>
                (List.range n).map fun m =>
                  if i = j ∧ j = k ∧ k = l ∧ l = m then (1 : Int) else 0⟩
  | _ :: _ :: _ => none

/-- Generator of a circuit (`quantum.Box`): domain, codomain and the
mixedness flag `is_mixed` (true for discard/measure-like generators). -/
structure CBox where
  name : String
  dom : BQTy
  cod : BQTy
  mixed : Bool
deriving DecidableEq, Repr

/-- A circuit (`quantum.Circuit`): a domain and a list of layers, each a
generator with a horizontal offset.  Modelled from the spec: the layer
list with offsets is the diagram representation of `monoidal.Diagram`
(spec section 3). -/
structure Circuit where
  dom : BQTy
  layers : List (CBox × Nat)
deriving DecidableEq, Repr

/-- Codomains of the successive layers of a circuit, obtained by the
left-to-right scan of the spec (section 3): each generator codomain is
spliced into the running type at its offset.  The codomain of layer `k`
of `monoidal.Layer` is `left @ box.cod @ right`, i.e. the scan type
after step `k`. -/
def scanBQ : BQTy → List (CBox × Nat) → List BQTy
  | _, [] => []
  | t, (b, o) :: rest =>
    let t' := t.take o ++ b.cod ++ t.drop (o + b.dom.length)
    t' :: scanBQ t' rest

/-- Embeds `quantum.Circuit.is_mixed`: both bits and qubits occur in the
domain or in the codomain of some layer, or some box is mixed. -/
def Circuit.is_mixed (c : Circuit) : Bool :=
  (c.dom.count BQ.bit != 0 && c.dom.count BQ.qubit != 0
    || (scanBQ c.dom c.layers).any fun t =>
        t.count BQ.bit != 0 && t.count BQ.qubit != 0)
  || c.layers.any fun bo => bo.1.mixed

end Discopy.Quantum

namespace Discopy

/-- Errors raised by the rigid layer.  `notAdjoints` and
`wrongAdjunction` model the two `AxiomError` raises of `rigid.Cup`,
`rigid.Cap` and `rigid.cups` (messages `are_not_adjoints` and
`wrong_adjunction`); `arity` models the `ValueError` with message
`cup_vs_cups`/`cap_vs_caps`, which section 7 of the spec calls
`ArityError`; `notComposable` models the error of sequential
composition with mismatched types. -/
inductive RErr where
  | notAdjoints
  | wrongAdjunction
  | arity
  | notComposable
deriving DecidableEq, Repr

deriving instance DecidableEq for Except

/-- Whether an error models a discopy `AxiomError`. -/
def RErr.isAxErr : RErr → Bool
  | .notAdjoints => true
  | .wrongAdjunction => true
  | _ => false

/-- Generators of rigid diagrams: plain boxes (`rigid.Box`, with the
dagger flag), cups and caps.  `cup`/`cap` carry the `left`/`right`
attributes stored by `rigid.Cup.__init__`/`rigid.Cap.__init__`; the
constructors `mkCup`/`mkCap` below perform the checks of those
initialisers. -/
inductive Box where
  | gen (name : String) (dom cod : Ty) (dg : Bool)
  | cup (left right : Ty)
  | cap (left right : Ty)
deriving DecidableEq, Repr

/-- Domain of a generator: a cup consumes `left @ right`, a cap consumes
nothing. -/
def Box.dom : Box → Ty
  | .gen _ d _ _ => d
  | .cup l r => l ++ r
  | .cap _ _ => []

/-- Codomain of a generator: a cap produces `left @ right`, a cup
produces nothing. -/
def Box.cod : Box → Ty
  | .gen _ _ c _ => c
  | .cup _ _ => []
  | .cap l r => l ++ r

/-- Whether a generator is a cup. -/
def Box.isCup : Box → Bool
  | .cup _ _ => true
  | _ => false

/-- Whether a generator is a cap. -/
def Box.isCap : Box → Bool
  | .cap _ _ => true
  | _ => false

/-- Embeds `rigid.Cup.__init__`: the operands must be single atomic
types (else the `ValueError` that the spec calls `ArityError`), must be
adjoint (else `AxiomError are_not_adjoints`), and must have the cup
curvature, i.e. not `left == right.r` (else
`AxiomError wrong_adjunction`). -/
def mkCup (l r : Ty) : Except RErr Box :=
  if l.length ≠ 1 ∨ r.length ≠ 1 then .error .arity
  else if tyR l ≠ r ∧ l ≠ tyR r then .error .notAdjoints
  else if l = tyR r then .error .wrongAdjunction
  else .ok (.cup l r)

/-- Embeds `rigid.Cap.__init__`: arity check, adjointness check, and
the cap curvature check rejecting `left.r == right`. -/
def mkCap (l r : Ty) : Except RErr Box :=
  if l.length ≠ 1 ∨ r.length ≠ 1 then .error .arity
  else if l ≠ tyR r ∧ tyR l ≠ r then .error .notAdjoints
  else if tyR l = r then .error .wrongAdjunction
  else .ok (.cap l r)

/-- A generator is valid when its constructor checks pass; plain boxes
are always constructible. -/
def ValidBox : Box → Bool
  | .gen _ _ _ _ => true
  | .cup l r => decide (l.length = 1 ∧ r.length = 1 ∧ tyR l = r ∧ l ≠ tyR r)
  | .cap l r => decide (l.length = 1 ∧ r.length = 1 ∧ l = tyR r ∧ tyR l ≠ r)

/-- A layer of a diagram: a generator together with its horizontal
offset.  Modelled from the spec (section 3): a diagram stores an ordered
sequence of (generator, offset) placements. -/
abbrev Layer := Box × Nat

/-- A rigid diagram: domain, codomain and the layer list.  Modelled from
the spec (section 3). -/
structure Diagram where
  dom : Ty
  cod : Ty
  layers : List Layer
deriving DecidableEq, Repr

/-- Identity diagram on a type (`rigid.Id`). -/
def idD (t : Ty) : Diagram := ⟨t, t, []⟩

/-- Splice the codomain of a generator into a scan type at an offset:
the type rewriting step of the left-to-right scan of the spec
(section 3). -/
def spliceTy (t : Ty) (o : Nat) (b : Box) : Ty :=
  t.take o ++ b.cod ++ t.drop (o + b.dom.length)

/-- Unchecked sequential composition: concatenate layers, keep offsets.
Modelled from the spec (section 4.2, `then`): the domain is the first
domain, the codomain the second codomain. -/
def compD (d1 d2 : Diagram) : Diagram := ⟨d1.dom, d2.cod, d1.layers ++ d2.layers⟩

/-- Checked sequential composition.  Modelled from the spec
(section 4.2): `then` fails unless `d1.cod == d2.dom`. -/
def thenD (d1 d2 : Diagram) : Option Diagram :=
  if d1.cod = d2.dom then some (compD d1 d2) else none

/-- Shift all offsets of a layer list by `k`. -/
def shiftL (k : Nat) (ls : List Layer) : List Layer :=
  ls.map fun p => (p.1, p.2 + k)

/-- Parallel composition.  Modelled from the spec (section 4.2): the
offsets of `d2` are shifted by the width of `d1.cod`; domains and
codomains concatenate. -/
def tensorD (d1 d2 : Diagram) : Diagram :=
  ⟨d1.dom ++ d2.dom, d1.cod ++ d2.cod, d1.layers ++ shiftL d1.cod.length d2.layers⟩

/-- The single-layer diagram of a generator (`rigid.Box` seen as a
diagram with layers `[self]` and offsets `[0]`). -/
def boxD (b : Box) : Diagram := ⟨b.dom, b.cod, [(b, 0)]⟩

/-- Validity of a diagram.  Modelled from the spec (section 3): scanning
the layers from the domain, each generator domain must match the slice
of the scan type at its offset, the scan ends at the codomain; and every
generator must itself be constructible. -/
def stepsOkB : Ty → List Layer → Ty → Bool
  | t, [], c => decide (t = c)
  | t, (b, o) :: rest, c =>
    decide (o + b.dom.length ≤ t.length)
      && decide ((t.drop o).take b.dom.length = b.dom)
      && ValidBox b
      && stepsOkB (spliceTy t o b) rest c

/-- A diagram is valid when its scan succeeds and all its generators are
constructible. -/
def Valid (d : Diagram) : Prop := stepsOkB d.dom d.layers d.cod = true

instance (d : Diagram) : Decidable (Valid d) :=
  inferInstanceAs (Decidable (stepsOkB d.dom d.layers d.cod = true))

/-- The scan type after a list of layers: fold the splice step over the
layers (the total version of the validity scan). -/
def scanList (t : Ty) (ls : List Layer) : Ty :=
  ls.foldl (fun t p => spliceTy t p.2 p.1) t

/-- The nested-cups loop of `rigid.cups`, generic in the generator
factory and the composition direction, without the constructor checks:
iteration `i` peels the `(n-1-i)`-th atom of `left` and the `i`-th atom
of `right` and tensors the produced generator between identities. -/
def nestedBuild (fac : Ty → Ty → Box) (rev : Bool) (l r : Ty) : Diagram :=
  (List.range l.length).foldl
    (fun result i =>
      let j := l.length - i - 1
      let b := fac ((l.drop j).take 1) ((r.drop i).take 1)
      let layer := tensorD (tensorD (idD (l.take j)) (boxD b)) (idD (r.drop (i + 1)))
      if rev then compD layer result else compD result layer)
    (idD (l ++ r))

/-- The checked nested-cups loop: same iteration, but the generator
factory may fail (modelling the constructor checks of `Cup`/`Cap`). -/
def nestedBuildE (fac : Ty → Ty → Except RErr Box) (rev : Bool) (l r : Ty) :
    Except RErr Diagram :=
  (List.range l.length).foldlM
    (fun result i => do
      let j := l.length - i - 1
      let b ← fac ((l.drop j).take 1) ((r.drop i).take 1)
      let layer := tensorD (tensorD (idD (l.take j)) (boxD b)) (idD (r.drop (i + 1)))
      pure (if rev then compD layer result else compD result layer))
    (idD (l ++ r))

/-- Embeds `rigid.cups` (generic over the factory and direction, as in
the source): raise `AxiomError` unless `left` and `right` are mutual
adjoints as whole types, then run the nested loop with the checked
factory. -/
def cupsGeneric (fac : Ty → Ty → Except RErr Box) (rev : Bool) (l r : Ty) :
    Except RErr Diagram :=
  if tyR l ≠ r ∧ tyR r ≠ l then .error .notAdjoints
  else nestedBuildE fac rev l r

/-- Embeds `rigid.cups` with the `Cup` factory. -/
def cups (l r : Ty) : Except RErr Diagram := cupsGeneric mkCup false l r

/-- Embeds `rigid.caps`: `cups` with the `Cap` factory and reversed
composition. -/
def caps (l r : Ty) : Except RErr Diagram := cupsGeneric mkCap true l r

/-- The unchecked variant of `cups` (the diagram `cups` returns when its
checks succeed). -/
def cups0 (l r : Ty) : Diagram := nestedBuild .cup false l r

/-- The unchecked variant of `caps`. -/
def caps0 (l r : Ty) : Diagram := nestedBuild .cap true l r

/-- Embeds `rigid.Diagram.transpose` (with `left=False`):
`caps(dom.r, dom) @ id(cod.r) >> id(dom.r) @ self @ id(cod.r)
>> id(dom.r) @ cups(cod, cod.r)`, with the checked builders and checked
composition. -/
def transposeD (d : Diagram) : Option Diagram := do
  let cp ← (caps (tyR d.dom) d.dom).toOption
  let up ← (cups d.cod (tyR d.cod)).toOption
  let a := tensorD cp (idD (tyR d.cod))
  let b := tensorD (tensorD (idD (tyR d.dom)) d) (idD (tyR d.cod))
  let c := tensorD (idD (tyR d.dom)) up
  let ab ← thenD a b
  thenD ab c

/-- The wire-following loop of `follow_wire` in `rigid.Diagram.normalize`,
over the list of layers strictly below the starting box.  `i` is the
absolute index of the head layer, `j` the traced offset (an integer, as
in the source).  Returns the index of the layer consuming the wire (or
the total length if the wire exits), the final offset, and the left and
right obstruction index lists. -/
def fwGo : List Layer → Nat → Int → Nat × Int × List Nat × List Nat
  | [], i, j => (i, j, [], [])
  | (b, off) :: rest, i, j =>
    if (off : Int) ≤ j ∧ j < (off : Int) + b.dom.length then (i, j, [], [])
    else if (off : Int) ≤ j then
      let out := fwGo rest (i + 1) (j + b.cod.length - b.dom.length)
      (out.1, out.2.1, i :: out.2.2.1, out.2.2.2)
    else
      let out := fwGo rest (i + 1) j
      (out.1, out.2.1, out.2.2.1, i :: out.2.2.2)

/-- Embeds `follow_wire(diagram, i, j)`: walk forward from the output
wire at offset `j` of the box at index `i`. -/
def followWire (d : Diagram) (i : Nat) (j : Int) : Nat × Int × List Nat × List Nat :=
  fwGo (d.layers.drop (i + 1)) (i + 1) j

/-- The data returned by snake detection:
`(cup, cap, (left obstructions, right obstructions), left_snake)`. -/
abbrev Snake := Nat × Nat × (List Nat × List Nat) × Bool

/-- Offset of the layer at an index (`diagram.offsets[i]`; the default is
irrelevant, the callers guard the index). -/
def offAt (d : Diagram) (i : Nat) : Nat := ((d.layers[i]?).map Prod.snd).getD 0

/-- Generator of the layer at an index (`diagram.boxes[i]`). -/
def boxAt? (d : Diagram) (i : Nat) : Option Box := (d.layers[i]?).map Prod.fst

/-- One candidate test of `find_snake`: follow the wire and apply the
`not_yankable` disjunction of the source. -/
def tryCand (d : Diagram) (cap : Nat) (ls : Bool) (wire : Int) : Option Snake :=
  let out := followWire d cap wire
  let cup := out.1
  let wire' := out.2.1
  let notY : Bool :=
    decide (cup = d.layers.length)
      || !(((boxAt? d cup).getD (Box.gen "" [] [] false)).isCup)
      || (ls && decide ((offAt d cup : Int) + 1 ≠ wire'))
      || (!ls && decide ((offAt d cup : Int) ≠ wire'))
  if notY then none else some (cup, cap, out.2.2, ls)

/-- The scan of `find_snake` over candidate cap indices: for each `Cap`
layer, try the left-snake wire (the cap offset) and then the right-snake
wire (the cap offset plus one). -/
def fsGo (d : Diagram) : List Nat → Option Snake
  | [] => none
  | c :: cs =>
    match d.layers[c]? with
    | some (b, off) =>
      if b.isCap then
        match tryCand d c true (off : Int) with
        | some s => some s
        | none =>
          match tryCand d c false ((off : Int) + 1) with
          | some s => some s
          | none => fsGo d cs
      else fsGo d cs
    | none => fsGo d cs

/-- Embeds `find_snake` of `rigid.Diagram.normalize`. -/
def findSnake (d : Diagram) : Option Snake := fsGo d (List.range d.layers.length)

/-- Adjacent interchange of layers `i` and `i+1`.  Modelled from the
spec (section 4.2): swap the layers when their wire ranges do not
overlap, adjusting the offset of the layer crossing the other by its
width difference; fail when the ranges overlap.  When both layers are
disjoint in both orders the lower-moves-left case is taken first. -/
def interchangeAdj (d : Diagram) (i : Nat) : Option Diagram :=
  match d.layers[i]?, d.layers[i + 1]? with
  | some (b0, o0), some (b1, o1) =>
    if o1 + b1.dom.length ≤ o0 then
      some ⟨d.dom, d.cod,
        (d.layers.set i (b1, o1)).set (i + 1) (b0, o0 + b1.cod.length - b1.dom.length)⟩
    else if o0 + b0.cod.length ≤ o1 then
      some ⟨d.dom, d.cod,
        (d.layers.set i (b1, o1 + b0.dom.length - b0.cod.length)).set (i + 1) (b0, o0)⟩
    else none
  | _, _ => none

/-- Move the layer at index `i` downward across `k` adjacent
interchanges. -/
def bubbleDown : Diagram → Nat → Nat → Option Diagram
  | d, _, 0 => some d
  | d, i, k + 1 => (interchangeAdj d i).bind fun d' => bubbleDown d' (i + 1) k

/-- Move the layer at index `i` upward across `k` adjacent
interchanges. -/
def bubbleUp : Diagram → Nat → Nat → Option Diagram
  | d, _, 0 => some d
  | d, i, k + 1 => (interchangeAdj d (i - 1)).bind fun d' => bubbleUp d' (i - 1) k

/-- General interchange of layers `i` and `j`.  Modelled from the spec
(sections 4.2 and 4.3): the layer at `i` is carried to position `j` by a
chain of adjacent interchanges; out-of-range indices fail (the
`IndexError` of the source). -/
def interchangeGen (d : Diagram) (i j : Nat) : Option Diagram :=
  if d.layers.length ≤ i ∨ d.layers.length ≤ j then none
  else if i = j then some d
  else if i < j then bubbleDown d i (j - i)
  else bubbleUp d i (i - j)

/-- Re-indexing of the right obstructions in the left-snake loop of
`unsnake`: obstructions below the moved box shift down by one. -/
def reindexL (R : List Nat) (box : Nat) : List Nat :=
  R.map fun r => if r < box then r + 1 else r

/-- Re-indexing of the right obstructions in the right-snake loop of
`unsnake`: obstructions above the moved box shift up by one. -/
def reindexR (R : List Nat) (box : Nat) : List Nat :=
  R.map fun r => if box < r then r - 1 else r

/-- First loop of the left-snake branch of `unsnake`: interchange each
left obstruction (nearest first) with the cap, emitting the diagram
after each step; the cap index grows by one per step. -/
def usL1 : Diagram → Nat → List Nat → List Nat → Option (List Diagram × Diagram × Nat × List Nat)
  | d, cap, [], R => some ([], d, cap, R)
  | d, cap, box :: L, R =>
    (interchangeGen d box cap).bind fun d' =>
      (usL1 d' (cap + 1) L (reindexL R box)).map fun out =>
        (d' :: out.1, out.2.1, out.2.2.1, out.2.2.2)

/-- Second loop of the left-snake branch of `unsnake`: interchange each
right obstruction (farthest first, the list is passed reversed) with the
cup; the cup index shrinks by one per step. -/
def usL2 : Diagram → Nat → List Nat → Option (List Diagram × Diagram × Nat)
  | d, cup, [] => some ([], d, cup)
  | d, cup, box :: Rrev =>
    (interchangeGen d box cup).bind fun d' =>
      (usL2 d' (cup - 1) Rrev).map fun out => (d' :: out.1, out.2.1, out.2.2)

/-- First loop of the right-snake branch of `unsnake`: interchange each
left obstruction (farthest first, the list is passed reversed) with the
cup; the cup index shrinks by one per step. -/
def usR1 : Diagram → Nat → List Nat → List Nat → Option (List Diagram × Diagram × Nat × List Nat)
  | d, cup, [], R => some ([], d, cup, R)
  | d, cup, box :: Lrev, R =>
    (interchangeGen d box cup).bind fun d' =>
      (usR1 d' (cup - 1) Lrev (reindexR R box)).map fun out =>
        (d' :: out.1, out.2.1, out.2.2.1, out.2.2.2)

/-- Second loop of the right-snake branch of `unsnake`: interchange each
right obstruction (nearest first) with the cap; the cap index grows by
one per step. -/
def usR2 : Diagram → Nat → List Nat → Option (List Diagram × Diagram × Nat)
  | d, cap, [] => some ([], d, cap)
  | d, cap, box :: R =>
    (interchangeGen d box cap).bind fun d' =>
      (usR2 d' (cap + 1) R).map fun out => (d' :: out.1, out.2.1, out.2.2)

/-- The final splice of `unsnake`: delete the layers at the (adjusted)
cap and cup indices, keeping `boxes[:cap] + boxes[cup+1:]`. -/
def spliceOut (d : Diagram) (cap cup : Nat) : Diagram :=
  ⟨d.dom, d.cod, d.layers.take cap ++ d.layers.drop (cup + 1)⟩

/-- The generator list of a diagram (`diagram.boxes`). -/
def boxesOf (d : Diagram) : List Box := d.layers.map Prod.fst

/-- Two diagrams with the same boundary, the same number of layers and
the same generators up to permutation (the invariant preserved by
interchange). -/
def SameShape (d' d : Diagram) : Prop :=
  d'.dom = d.dom ∧ d'.cod = d.cod ∧ d'.layers.length = d.layers.length
    ∧ List.Perm (boxesOf d') (boxesOf d)

/-- Embeds `unsnake` of `rigid.Diagram.normalize`: run the interchange
loops of the matching branch, then emit the spliced diagram.  The output
list is the sequence of diagrams the source yields. -/
def unsnake (d : Diagram) (cup cap : Nat) (L R : List Nat) (ls : Bool) :
    Option (List Diagram) :=
  if ls then
    (usL1 d cap L R).bind fun o1 =>
      (usL2 o1.2.1 cup o1.2.2.2.reverse).map fun o2 =>
        o1.1 ++ o2.1 ++ [spliceOut o2.2.1 o1.2.2.1 o2.2.2]
  else
    (usR1 d cup L.reverse R).bind fun o1 =>
      (usR2 o1.2.1 cap o1.2.2.2).map fun o2 =>
        o1.1 ++ o2.1 ++ [spliceOut o2.2.1 o2.2.2 o1.2.2.1]

/-- The snake-removal loop of `rigid.Diagram.normalize`: repeatedly find
a snake and run `unsnake`, continuing from the last emitted diagram.
The loop terminates because every elimination shrinks the layer list;
the fuel argument makes the recursion structural, and the callers supply
enough fuel. -/
def snakeLoop : Nat → Diagram → Option (List Diagram)
  | 0, _ => none
  | fuel + 1, d =>
    match findSnake d with
    | none => some []
    | some (cup, cap, (L, R), ls) =>
      (unsnake d cup cap L R ls).bind fun steps =>
        match steps.getLast? with
        | none => none
        | some dl => (snakeLoop fuel dl).map fun rest => steps ++ rest

/-- Modelled from the spec: section 4.3 step 4 hands the residual
diagram to a symmetric-monoidal flattening pass, an external
collaborator of this core; on the residual diagrams reached in this
development (identity diagrams with no layers) it emits no steps, and it
is modelled as emitting none. -/
def monoidalFlattenSteps (_d : Diagram) : List Diagram := []

/-- The full normalization sequence of `rigid.Diagram.normalize`: the
snake-removal steps followed by the steps of the external flattening
pass on the residual. -/
def normalizeSteps (d : Diagram) : Option (List Diagram) :=
  (snakeLoop (d.layers.length + 1) d).map fun steps =>
    steps ++ monoidalFlattenSteps (steps.getLastD d)

/-- Embeds `rigid.Diagram.normal_form`: drain the normalization sequence
and return its last element (the diagram itself when the sequence is
empty). -/
def normalForm (d : Diagram) : Option Diagram :=
  (normalizeSteps d).map fun steps => steps.getLastD d

/-- A rigid functor (`rigid.Functor`): images of zero-level objects
(keyed by name) and images of generators.  The claim under test assumes
images exist for all generators, so both maps are total. -/
structure Functor where
  ob : String → Ty
  ar : Box → Diagram

/-- Iterate the right dual. -/
def iterR : Ty → Nat → Ty
  | t, 0 => t
  | t, k + 1 => iterR (tyR t) k

/-- Iterate the left dual. -/
def iterL : Ty → Nat → Ty
  | t, 0 => t
  | t, k + 1 => iterL (tyL t) k

/-- Image of a single object under a functor (`rigid.Functor.__call__`
on types): look up the zero-level image and apply the target dual `|z|`
times in the direction of the sign of `z`. -/
def obImg (F : Functor) (o : Ob) : Ty :=
  if o.z < 0 then iterL (F.ob o.name) o.z.natAbs else iterR (F.ob o.name) o.z.toNat

/-- Image of a type: concatenate the object images. -/
def FTy (F : Functor) (t : Ty) : Ty := t.flatMap (obImg F)

/-- Image of a generator (`rigid.Functor.__call__`): cups and caps are
special-cased through the target cups/caps builders on the images of
their endpoint types (`self(diagram.dom[:1])`, `self(diagram.dom[1:])`
resp. the codomain slices); all other generators look up `ar`.  The
builders appear in their unchecked form; for valid cups and caps the
checked builders return exactly these diagrams. -/
def Fbox (F : Functor) (b : Box) : Diagram :=
  match b with
  | .cup l r => cups0 (FTy F ((l ++ r).take 1)) (FTy F ((l ++ r).drop 1))
  | .cap l r => caps0 (FTy F ((l ++ r).take 1)) (FTy F ((l ++ r).drop 1))
  | b => F.ar b

/-- The layer-by-layer functor application loop.  Modelled from the spec
(section 4.4): each layer substitutes the image of its generator at the
image of its tensor position, composed in source order; the scan type
tracks the intermediate type of the source diagram. -/
def Fgo (F : Functor) : Ty → Diagram → List Layer → Diagram
  | _, acc, [] => acc
  | scan, acc, (b, o) :: rest =>
    Fgo F (spliceTy scan o b)
      (compD acc
        (tensorD (tensorD (idD (FTy F (scan.take o))) (Fbox F b))
          (idD (FTy F (scan.drop (o + b.dom.length))))))
      rest

/-- Functor application to a diagram. -/
def Fdiag (F : Functor) (d : Diagram) : Diagram :=
  Fgo F d.dom (idD (FTy F d.dom)) d.layers

/-- The box images of a functor are well-typed: the image of a plain
generator has the image types as domain and codomain. -/
def ArOk (F : Functor) : Prop :=
  ∀ name dom cod dg,
    (F.ar (.gen name dom cod dg)).dom = FTy F dom
      ∧ (F.ar (.gen name dom cod dg)).cod = FTy F cod

/-- A concrete functor for witnesses: each name maps to its zero-level
atom, each generator to itself as a single-layer diagram over the image
types. -/
def wF : Functor :=
  ⟨fun nm => [⟨nm, 0⟩],
    fun b =>
      ⟨FTy ⟨fun nm => [⟨nm, 0⟩], fun _ => idD []⟩ b.dom,
        FTy ⟨fun nm => [⟨nm, 0⟩], fun _ => idD []⟩ b.cod, [(b, 0)]⟩⟩

/-- Pointwise right adjoint of a list of objects. -/
def obsR (t : Ty) : Ty := t.map Ob.r

/-- The cap layers of the transpose-of-identity diagram family: for
`zs = reverse t`, layer `p` is `Cap` on the `p`-th element of `zs`,
at offset `s + p`. -/
def famCaps (s : Nat) (zs : List Ob) : List Layer :=
  (List.range zs.length).map fun p =>
    (Box.cap (obsR ((zs.drop p).take 1)) ((zs.drop p).take 1), s + p)

/-- The cup layers of the family: layer `p` is `Cup` on the `p`-th
element of `zs`, at offset `s + (2|zs| - 1 - p)`. -/
def famCups (s : Nat) (zs : List Ob) : List Layer :=
  (List.range zs.length).map fun p =>
    (Box.cup ((zs.drop p).take 1) (obsR ((zs.drop p).take 1)), s + (2 * zs.length - 1 - p))

/-- The layer list of the partially-normalized transpose-of-identity
diagram: the remaining caps followed by the remaining cups. -/
def famLayers (s : Nat) (zs : List Ob) : List Layer := famCaps s zs ++ famCups s zs

/-- The layer list after `i` interchanges of one snake elimination on
`famLayers s zs`: the outermost cup has bubbled up `i` positions, past
`i` of the caps. -/
def famMid (s : Nat) (zs : List Ob) (i : Nat) : List Layer :=
  (famCaps s zs).take (zs.length - i)
    ++ [(Box.cup (zs.take 1) (obsR (zs.take 1)), s + (2 * zs.length - 1 - 2 * i))]
    ++ (famCaps s zs).drop (zs.length - i)
    ++ (famCups s zs).drop 1

end Discopy

namespace Discopy

theorem obL_r (o : Ob) : (o.l).r = o := by
  cases o with
  | mk name z =>
    simp only [Ob.l, Ob.r, Ob.mk.injEq]
    exact ⟨trivial, by omega⟩

theorem obR_l (o : Ob) : (o.r).l = o := by
  cases o with
  | mk name z =>
    simp only [Ob.l, Ob.r, Ob.mk.injEq]
    exact ⟨trivial, by omega⟩

theorem tyR_tyL (t : Ty) : tyR (tyL t) = t := by
  simp only [tyL, tyR, List.map_reverse, List.reverse_reverse, List.map_map]
  simp [Function.comp_def, obL_r]

theorem tyL_tyR (t : Ty) : tyL (tyR t) = t := by
  simp only [tyL, tyR, List.map_reverse, List.reverse_reverse, List.map_map]
  simp [Function.comp_def, obR_l]

/-- C3: for every type `t`, `t.l.r == t` and `t.r.l == t`, and for every
object, taking the left then the right adjoint (or the right then the
left) restores the object, because `l` decrements and `r` increments the
winding number and both reverse the sequence. -/
theorem c3_adjoint_roundtrip :
    (∀ t : Ty, tyR (tyL t) = t ∧ tyL (tyR t) = t)
      ∧ (∀ o : Ob, (o.l).r = o ∧ (o.r).l = o) :=
  ⟨fun t => ⟨tyR_tyL t, tyL_tyR t⟩, fun o => ⟨obL_r o, obR_l o⟩⟩

end Discopy

namespace Discopy.Quantum

/-- C10: in both backend type algebras the left and right duals
coincide (both reverse the dimension sequences), hence every type
satisfies `t.l.l == t`. -/
theorem c10_self_dual :
    (∀ t : CQ, t.l = t.r ∧ (t.l).l = t)
      ∧ (∀ u : BQTy, bqL u = bqR u ∧ bqL (bqL u) = u) := by
  constructor
  · intro t
    refine ⟨rfl, ?_⟩
    cases t with
    | mk c q => simp [CQ.l]
  · intro u
    exact ⟨rfl, by simp [bqL, bqR]⟩

theorem b2iGo_succ (l : List Nat) (k : Nat) : b2iGo l (k + 1) = 2 * b2iGo l k := by
  induction l generalizing k with
  | nil => simp [b2iGo]
  | cons v rest ih =>
    simp only [b2iGo, ih, pow_succ]
    ring

theorem bitstring2index_concat (l : List Nat) (b : Nat) :
    bitstring2index (l ++ [b]) = 2 * bitstring2index l + b := by
  simp only [bitstring2index, List.reverse_append, List.reverse_cons, List.reverse_nil,
    List.nil_append, List.cons_append, b2iGo]
  rw [b2iGo_succ]
  ring

theorem padbin_length (n i : Nat) : (padbin n i).length = n := by
  induction n generalizing i with
  | zero => rfl
  | succ n ih => simp [padbin, ih]

theorem padbin_mem (n i : Nat) : ∀ b ∈ padbin n i, b = 0 ∨ b = 1 := by
  induction n generalizing i with
  | zero => simp [padbin]
  | succ n ih =>
    intro b hb
    simp only [padbin, List.mem_append, List.mem_singleton] at hb
    rcases hb with h | h
    · exact ih _ b h
    · subst h; omega

theorem bitstring2index_padbin (n i : Nat) (h : i < 2 ^ n) :
    bitstring2index (padbin n i) = i := by
  induction n generalizing i with
  | zero =>
    interval_cases i
    rfl
  | succ n ih =>
    have hdiv : i / 2 < 2 ^ n := by
      rw [pow_succ] at h
      omega
    simp only [padbin, bitstring2index_concat, ih _ hdiv]
    omega

/-- C9: bitstring encodings round-trip: for `i < 2 ^ n`,
`index2bitstring i n` returns a list of exactly `n` bits (each 0 or 1)
whose `bitstring2index` is `i`; and for `i >= 2 ^ n` it fails with the
`ValueError` (modelled as `none`). -/
theorem c9_bitstring_roundtrip (n i : Nat) :
    (2 ^ n ≤ i → index2bitstring i n = none)
      ∧ (i < 2 ^ n →
          index2bitstring i n = some (padbin n i)
            ∧ (padbin n i).length = n
            ∧ (∀ b ∈ padbin n i, b = 0 ∨ b = 1)
            ∧ bitstring2index (padbin n i) = i) := by
  constructor
  · intro h
    simp [index2bitstring, h]
  · intro h
    refine ⟨?_, padbin_length n i, padbin_mem n i, bitstring2index_padbin n i h⟩
    simp [index2bitstring, Nat.not_le.mpr h]

/-- Witness for C9 at `n = 8`, `i = 42` and the failure side at
`n = 3`, `i = 8`. -/
theorem c9_bitstring_roundtrip_w :
    index2bitstring 42 8 = some [0, 0, 1, 0, 1, 0, 1, 0]
      ∧ bitstring2index [0, 0, 1, 0, 1, 0, 1, 0] = 42
      ∧ index2bitstring 8 3 = none := by
  have h1 := (c9_bitstring_roundtrip 8 42).2 (by norm_num)
  have h2 := (c9_bitstring_roundtrip 3 8).1 (by norm_num)
  refine ⟨?_, ?_, h2⟩
  · rw [h1.1]; decide
  · have := h1.2.2.2
    rw [show padbin 8 42 = [0, 0, 1, 0, 1, 0, 1, 0] from by decide] at this
    exact this

/-- C5: the destructive measurement on `Dim(2)` is a map from
`Q(Dim(2))` to `C(Dim(2))` whose array, viewed as a 3-index tensor over
indices in 0..1 (position `4i + 2j + k` of the flat row-major list), has
entries 0 and 1 only, with exactly two entries equal to 1, at
`(0,0,0)` and `(1,1,1)`. -/
theorem c5_measure_dim2 :
    ∃ m, CQMap.measure [2] true = some m
      ∧ m.dom = Q [2] ∧ m.cod = C [2]
      ∧ m.array.length = 8
      ∧ (∀ x ∈ m.array, x = 0 ∨ x = 1)
      ∧ (∀ i j k : Fin 2,
          m.array.getD (4 * i.val + 2 * j.val + k.val) 0 =
            if (i.val = 0 ∧ j.val = 0 ∧ k.val = 0) ∨ (i.val = 1 ∧ j.val = 1 ∧ k.val = 1)
            then 1 else 0) := by
  refine ⟨⟨Q [2], C [2], [1, 0, 0, 0, 0, 0, 0, 1]⟩, by decide, rfl, rfl, rfl, by decide, by decide⟩

end Discopy.Quantum

namespace Discopy

/-- C7: constructing a single `Cup` or `Cap` with an operand that is not
a single atomic type fails with the arity error (the `ValueError` the
spec calls `ArityError`); the arity check precedes the adjointness
checks. -/
theorem c7_cup_cap_arity (l r : Ty) (h : l.length ≠ 1 ∨ r.length ≠ 1) :
    mkCup l r = .error .arity ∧ mkCap l r = .error .arity := by
  constructor
  · simp [mkCup, h]
  · simp [mkCap, h]

/-- Witness for C7 at `l = n @ n`, `r = n`. -/
theorem c7_cup_cap_arity_w :
    mkCup [Ob.mk "n" 0, Ob.mk "n" 0] [Ob.mk "n" 0] = .error .arity
      ∧ mkCap [Ob.mk "n" 0, Ob.mk "n" 0] [Ob.mk "n" 0] = .error .arity :=
  c7_cup_cap_arity [Ob.mk "n" 0, Ob.mk "n" 0] [Ob.mk "n" 0] (by decide)

theorem drop_take_one (xs : List Ob) (i : Nat) (h : i < xs.length) :
    (xs.drop i).take 1 = [xs[i]] := by
  rw [List.drop_eq_getElem_cons h]
  rfl

theorem tyR_length (t : Ty) : (tyR t).length = t.length := by simp [tyR]

theorem tyR_nil_iff (t : Ty) : tyR t = [] ↔ t = [] := by
  simp [tyR]

theorem tyR_cons (a : Ob) (t : Ty) : tyR (a :: t) = tyR t ++ [a.r] := by
  simp [tyR]

theorem tyR_slice (t : Ty) (i : Nat) (h : i < t.length) :
    ((tyR t).drop i).take 1 = [(t[t.length - i - 1]).r] := by
  have h' : i < (tyR t).length := by rw [tyR_length]; exact h
  rw [drop_take_one _ i h']
  congr 1
  simp only [tyR]
  rw [List.getElem_map, List.getElem_reverse]
  have e : t.length - 1 - i = t.length - i - 1 := by omega
  simp only [e]

theorem mkCup_adj (x : Ob) : mkCup [x] [x.r] = .ok (.cup [x] [x.r]) := by
  cases x with
  | mk nm z =>
    simp [mkCup, tyR, Ob.r, Ob.mk.injEq]
    omega

theorem mkCap_adj (y : Ob) : mkCap [y.r] [y] = .ok (.cap [y.r] [y]) := by
  cases y with
  | mk nm z =>
    simp [mkCap, tyR, Ob.r, Ob.mk.injEq]
    omega

theorem mkCup_wrong (y : Ob) : mkCup [y.r] [y] = .error .wrongAdjunction := by
  cases y with
  | mk nm z =>
    simp [mkCup, tyR, Ob.r, Ob.mk.injEq]

theorem mkCap_wrong (x : Ob) : mkCap [x] [x.r] = .error .wrongAdjunction := by
  cases x with
  | mk nm z =>
    simp [mkCap, tyR, Ob.r, Ob.mk.injEq]

theorem foldlM_except_ok {ε α β : Type} (f : β → α → Except ε β) (g : β → α → β)
    (xs : List α) (h : ∀ x ∈ xs, ∀ b, f b x = .ok (g b x)) :
    ∀ b, xs.foldlM f b = .ok (xs.foldl g b) := by
  induction xs with
  | nil => intro b; rfl
  | cons x xs ih =>
    intro b
    rw [List.foldlM_cons, h x (List.mem_cons_self x xs) b]
    exact ih (fun y hy b' => h y (List.mem_cons_of_mem x hy) b') (g b x)

theorem foldlM_except_err {ε α β : Type} (f : β → α → Except ε β) (x : α) (xs : List α)
    (b : β) (e : ε) (h : f b x = .error e) : (x :: xs).foldlM f b = .error e := by
  rw [List.foldlM_cons, h]
  rfl

theorem nestedBuildE_ok (facE : Ty → Ty → Except RErr Box) (fac : Ty → Ty → Box)
    (rev : Bool) (l r : Ty)
    (h : ∀ i, i < l.length →
      facE ((l.drop (l.length - i - 1)).take 1) ((r.drop i).take 1)
        = .ok (fac ((l.drop (l.length - i - 1)).take 1) ((r.drop i).take 1))) :
    nestedBuildE facE rev l r = .ok (nestedBuild fac rev l r) := by
  unfold nestedBuildE nestedBuild
  apply foldlM_except_ok
  intro i hi b
  have hi' : i < l.length := List.mem_range.mp hi
  simp only []
  rw [h i hi']
  rfl

theorem cups_ok (l : Ty) : cups l (tyR l) = .ok (cups0 l (tyR l)) := by
  unfold cups cupsGeneric cups0
  rw [if_neg (by simp)]
  apply nestedBuildE_ok
  intro i hi
  rw [drop_take_one l (l.length - i - 1) (by omega), tyR_slice l i hi]
  exact mkCup_adj _

theorem caps_ok (r : Ty) : caps (tyR r) r = .ok (caps0 (tyR r) r) := by
  unfold caps cupsGeneric caps0
  rw [if_neg (by simp)]
  apply nestedBuildE_ok
  intro i hi
  rw [tyR_length] at hi
  rw [tyR_length, tyR_slice r (r.length - i - 1) (by omega),
    drop_take_one r i hi]
  have e : r.length - (r.length - i - 1) - 1 = i := by omega
  simp only [e]
  exact mkCap_adj _

theorem cups_err_notAdj (l r : Ty) (h1 : tyR l ≠ r) (h2 : tyR r ≠ l) :
    cups l r = .error .notAdjoints := by
  unfold cups cupsGeneric
  rw [if_pos ⟨h1, h2⟩]

theorem caps_err_notAdj (l r : Ty) (h1 : tyR l ≠ r) (h2 : tyR r ≠ l) :
    caps l r = .error .notAdjoints := by
  unfold caps cupsGeneric
  rw [if_pos ⟨h1, h2⟩]

theorem cups_err_wrong (l r : Ty) (h1 : tyR l ≠ r) (h2 : tyR r = l) :
    cups l r = .error .wrongAdjunction := by
  subst h2
  cases r with
  | nil => exact absurd rfl h1
  | cons y r' =>
    unfold cups cupsGeneric nestedBuildE
    rw [if_neg (fun hc => hc.2 rfl)]
    rw [tyR_length, List.length_cons, List.range_succ_eq_map, List.foldlM_cons]
    have hs1 : ((tyR (y :: r')).drop (r'.length + 1 - 0 - 1)).take 1 = [y.r] := by
      rw [tyR_cons]
      have e : r'.length + 1 - 0 - 1 = (tyR r').length := by rw [tyR_length]; omega
      rw [e, List.drop_left]
      rfl
    simp only [hs1, List.drop_zero, List.take_succ_cons, List.take_zero, mkCup_wrong]
    rfl

theorem caps_err_wrong (l r : Ty) (h1 : tyR r ≠ l) (h2 : tyR l = r) :
    caps l r = .error .wrongAdjunction := by
  subst h2
  cases hl : l.reverse with
  | nil =>
    rw [List.reverse_eq_nil_iff] at hl
    subst hl
    exact absurd rfl h1
  | cons x l'' =>
    have hlv : l = l''.reverse ++ [x] := by
      have := congrArg List.reverse hl
      simpa using this
    subst hlv
    unfold caps cupsGeneric nestedBuildE
    rw [if_neg (fun hc => hc.1 rfl)]
    have hlen : (l''.reverse ++ [x]).length = l''.length + 1 := by simp
    rw [hlen, List.range_succ_eq_map, List.foldlM_cons]
    have hrlen : l''.length = l''.reverse.length := by simp
    have hs1 : ((l''.reverse ++ [x]).drop (l''.length + 1 - 0 - 1)).take 1 = [x] := by
      have e : l''.length + 1 - 0 - 1 = l''.reverse.length := by simp
      rw [e, List.drop_left]
      rfl
    have hs2 : ((tyR (l''.reverse ++ [x])).drop 0).take 1 = [x.r] := by
      have : tyR (l''.reverse ++ [x]) = x.r :: tyR l''.reverse := by
        simp [tyR]
      rw [this]
      rfl
    simp only [hs1, hs2, mkCap_wrong]
    rfl

/-- C6 (amended): `cups(left, right)` succeeds exactly when
`left.r == right` and `caps(left, right)` exactly when
`right.r == left`; every failure (including the mutual-adjoint case of
the other curvature, rejected by the constructor wrong-adjunction check)
raises an `AxiomError`. -/
theorem c6_cups_caps (l r : Ty) :
    ((∃ d, cups l r = .ok d) ↔ tyR l = r)
      ∧ ((∃ d, caps l r = .ok d) ↔ tyR r = l)
      ∧ (∀ e, cups l r = .error e → e.isAxErr = true)
      ∧ (∀ e, caps l r = .error e → e.isAxErr = true) := by
  refine ⟨⟨?_, ?_⟩, ⟨?_, ?_⟩, ?_, ?_⟩
  · intro ⟨d, hd⟩
    by_contra h1
    by_cases h2 : tyR r = l
    · rw [cups_err_wrong l r h1 h2] at hd; cases hd
    · rw [cups_err_notAdj l r h1 h2] at hd; cases hd
  · intro h
    subst h
    exact ⟨_, cups_ok l⟩
  · intro ⟨d, hd⟩
    by_contra h1
    by_cases h2 : tyR l = r
    · rw [caps_err_wrong l r h1 h2] at hd; cases hd
    · rw [caps_err_notAdj l r h2 h1] at hd; cases hd
  · intro h
    subst h
    exact ⟨_, caps_ok r⟩
  · intro e he
    by_cases h1 : tyR l = r
    · subst h1; rw [cups_ok l] at he; cases he
    · by_cases h2 : tyR r = l
      · rw [cups_err_wrong l r h1 h2] at he
        cases he; rfl
      · rw [cups_err_notAdj l r h1 h2] at he
        cases he; rfl
  · intro e he
    by_cases h1 : tyR r = l
    · subst h1; rw [caps_ok r] at he; cases he
    · by_cases h2 : tyR l = r
      · rw [caps_err_wrong l r h1 h2] at he
        cases he; rfl
      · rw [caps_err_notAdj l r h2 h1] at he
        cases he; rfl

/-- Counterexample for C6 as stated: `left = n.r` and `right = n` are
whole-type mutual adjoints (`right.r == left`), yet `cups` raises an
`AxiomError` (the wrong-adjunction check of the `Cup` constructor)
instead of succeeding. -/
theorem c6_counterexample :
    tyR [Ob.mk "n" 0] = [Ob.mk "n" 1]
      ∧ cups [Ob.mk "n" 1] [Ob.mk "n" 0] = .error .wrongAdjunction := by
  decide

/-- Witness for C6 applying the theorem at `left = n.r`, `right = n`. -/
theorem c6_cups_caps_w : RErr.isAxErr .wrongAdjunction = true :=
  (c6_cups_caps [Ob.mk "n" 1] [Ob.mk "n" 0]).2.2.1 .wrongAdjunction (by decide)

end Discopy

namespace Discopy.Quantum

theorem scanBQ_uniform (v : BQ) :
    ∀ (ls : List (CBox × Nat)) (t : BQTy), (∀ x ∈ t, x = v) →
      (∀ p ∈ ls, ∀ x ∈ p.1.cod, x = v) →
      ∀ u ∈ scanBQ t ls, ∀ x ∈ u, x = v := by
  intro ls
  induction ls with
  | nil => intro t _ _ u hu; cases hu
  | cons p rest ih =>
    intro t ht hb u hu
    obtain ⟨b, o⟩ := p
    simp only [scanBQ, List.mem_cons] at hu
    have ht' : ∀ x ∈ t.take o ++ b.cod ++ t.drop (o + b.dom.length), x = v := by
      intro x hx
      simp only [List.mem_append] at hx
      rcases hx with (hx | hx) | hx
      · exact ht x (List.mem_of_mem_take hx)
      · exact hb (b, o) (List.mem_cons_self ..) x hx
      · exact ht x (List.mem_of_mem_drop hx)
    rcases hu with hu | hu
    · subst hu; exact ht'
    · exact ih _ ht' (fun q hq => hb q (List.mem_cons_of_mem _ hq)) u hu

theorem uniform_not_both (v : BQ) (t : BQTy) (ht : ∀ x ∈ t, x = v) :
    ¬(t.count BQ.bit ≠ 0 ∧ t.count BQ.qubit ≠ 0) := by
  rintro ⟨hb, hq⟩
  have hbm : BQ.bit ∈ t := by
    by_contra h
    exact hb (List.count_eq_zero.mpr h)
  have hqm : BQ.qubit ∈ t := by
    by_contra h
    exact hq (List.count_eq_zero.mpr h)
  have h1 := ht _ hbm
  have h2 := ht _ hqm
  exact absurd (h1.trans h2.symm) (by decide)

theorem is_mixed_uniform (c : Circuit) (v : BQ) (hd : ∀ x ∈ c.dom, x = v)
    (hb : ∀ p ∈ c.layers, p.1.mixed = false ∧ ∀ x ∈ p.1.cod, x = v) :
    c.is_mixed = false := by
  have hscan := scanBQ_uniform v c.layers c.dom hd (fun p hp => (hb p hp).2)
  simp only [Circuit.is_mixed, Bool.or_eq_false_iff, List.any_eq_false]
  refine ⟨⟨?_, ?_⟩, ?_⟩
  · by_cases h : c.dom.count BQ.bit = 0
    · simp [h]
    · have := uniform_not_both v c.dom hd
      have hq : c.dom.count BQ.qubit = 0 := by
        by_contra hq
        exact this ⟨h, hq⟩
      simp [hq]
  · intro t htm
    have hall := hscan t htm
    have := uniform_not_both v t hall
    by_cases h : t.count BQ.bit = 0
    · simp [h]
    · have hq : t.count BQ.qubit = 0 := by
        by_contra hq
        exact this ⟨h, hq⟩
      simp [hq]
  · intro p hp
    simp [(hb p hp).1]

/-- C8: `Circuit.is_mixed` is true exactly when bit and qubit both occur
in the domain or in the codomain of some layer, or some box carries the
mixedness flag; and a circuit built only from qubit-only (or only
bit-only) non-mixed boxes on a matching domain is not mixed. -/
theorem c8_is_mixed (c : Circuit) :
    (c.is_mixed = true ↔
      ((c.dom.count BQ.bit ≠ 0 ∧ c.dom.count BQ.qubit ≠ 0)
        ∨ (∃ t ∈ scanBQ c.dom c.layers, t.count BQ.bit ≠ 0 ∧ t.count BQ.qubit ≠ 0)
        ∨ (∃ p ∈ c.layers, p.1.mixed = true)))
      ∧ ((∀ x ∈ c.dom, x = BQ.qubit) →
          (∀ p ∈ c.layers, p.1.mixed = false ∧ ∀ x ∈ p.1.cod, x = BQ.qubit) →
          c.is_mixed = false)
      ∧ ((∀ x ∈ c.dom, x = BQ.bit) →
          (∀ p ∈ c.layers, p.1.mixed = false ∧ ∀ x ∈ p.1.cod, x = BQ.bit) →
          c.is_mixed = false) := by
  refine ⟨?_, is_mixed_uniform c BQ.qubit, is_mixed_uniform c BQ.bit⟩
  simp only [Circuit.is_mixed, Bool.or_eq_true, Bool.and_eq_true, List.any_eq_true,
    bne_iff_ne, ne_eq]
  constructor
  · rintro ((⟨h1, h2⟩ | ⟨t, ht, h1, h2⟩) | ⟨p, hp, hm⟩)
    · exact .inl ⟨h1, h2⟩
    · exact .inr (.inl ⟨t, ht, h1, h2⟩)
    · exact .inr (.inr ⟨p, hp, hm⟩)
  · rintro (⟨h1, h2⟩ | ⟨t, ht, h1, h2⟩ | ⟨p, hp, hm⟩)
    · exact .inl (.inl ⟨h1, h2⟩)
    · exact .inl (.inr ⟨t, ht, h1, h2⟩)
    · exact .inr ⟨p, hp, hm⟩

/-- Witness for C8: a one-qubit circuit with a single pure qubit box is
not mixed. -/
theorem c8_is_mixed_w :
    Circuit.is_mixed ⟨[BQ.qubit], [(⟨"H", [BQ.qubit], [BQ.qubit], false⟩, 0)]⟩ = false :=
  (c8_is_mixed ⟨[BQ.qubit], [(⟨"H", [BQ.qubit], [BQ.qubit], false⟩, 0)]⟩).2.1
    (by decide) (by decide)

end Discopy.Quantum



namespace Discopy

theorem SameShape.refl (d : Diagram) : SameShape d d :=
  ⟨rfl, rfl, rfl, List.Perm.refl _⟩

theorem SameShape.trans {d1 d2 d3 : Diagram} (h1 : SameShape d1 d2) (h2 : SameShape d2 d3) :
    SameShape d1 d3 :=
  ⟨h1.1.trans h2.1, h1.2.1.trans h2.2.1, h1.2.2.1.trans h2.2.2.1, h1.2.2.2.trans h2.2.2.2⟩

theorem set_swap_perm {α : Type} (l : List α) (i : Nat) (x y : α)
    (hx : l[i]? = some x) (hy : l[i + 1]? = some y) :
    List.Perm ((l.set i y).set (i + 1) x) l := by
  induction l generalizing i with
  | nil => cases hx
  | cons a l ih =>
    cases i with
    | zero =>
      cases l with
      | nil => cases hy
      | cons b l' =>
        simp at hx hy
        subst hx
        subst hy
        simp only [List.set]
        exact List.Perm.swap ..
    | succ i' =>
      simp only [List.getElem?_cons_succ] at hx hy
      simp only [List.set]
      exact (ih i' hx hy).cons a

theorem interchangeAdj_shape (d d' : Diagram) (i : Nat)
    (h : interchangeAdj d i = some d') : SameShape d' d := by
  unfold interchangeAdj at h
  cases hx : d.layers[i]? with
  | none => rw [hx] at h; cases h
  | some p0 =>
    cases hy : d.layers[i + 1]? with
    | none => rw [hx, hy] at h; cases h
    | some p1 =>
      obtain ⟨b0, o0⟩ := p0
      obtain ⟨b1, o1⟩ := p1
      rw [hx, hy] at h
      simp only at h
      have hbx : (boxesOf d)[i]? = some b0 := by
        simp [boxesOf, List.getElem?_map, hx]
      have hby : (boxesOf d)[i + 1]? = some b1 := by
        simp [boxesOf, List.getElem?_map, hy]
      split_ifs at h with h1 h2
      · cases h
        refine ⟨rfl, rfl, by simp, ?_⟩
        have : boxesOf ⟨d.dom, d.cod,
            (d.layers.set i (b1, o1)).set (i + 1) (b0, o0 + b1.cod.length - b1.dom.length)⟩
            = ((boxesOf d).set i b1).set (i + 1) b0 := by
          simp [boxesOf, List.map_set]
        rw [this]
        exact set_swap_perm (boxesOf d) i b0 b1 hbx hby
      · cases h
        refine ⟨rfl, rfl, by simp, ?_⟩
        have : boxesOf ⟨d.dom, d.cod,
            (d.layers.set i (b1, o1 + b0.dom.length - b0.cod.length)).set (i + 1) (b0, o0)⟩
            = ((boxesOf d).set i b1).set (i + 1) b0 := by
          simp [boxesOf, List.map_set]
        rw [this]
        exact set_swap_perm (boxesOf d) i b0 b1 hbx hby

theorem bubbleDown_shape : ∀ (k : Nat) (d d' : Diagram) (i : Nat),
    bubbleDown d i k = some d' → SameShape d' d := by
  intro k
  induction k with
  | zero =>
    intro d d' i h
    cases h
    exact SameShape.refl d
  | succ k ih =>
    intro d d' i h
    simp only [bubbleDown] at h
    cases hic : interchangeAdj d i with
    | none => rw [hic] at h; cases h
    | some d1 =>
      rw [hic] at h
      exact (ih d1 d' (i + 1) h).trans (interchangeAdj_shape d d1 i hic)

theorem bubbleUp_shape : ∀ (k : Nat) (d d' : Diagram) (i : Nat),
    bubbleUp d i k = some d' → SameShape d' d := by
  intro k
  induction k with
  | zero =>
    intro d d' i h
    cases h
    exact SameShape.refl d
  | succ k ih =>
    intro d d' i h
    simp only [bubbleUp] at h
    cases hic : interchangeAdj d (i - 1) with
    | none => rw [hic] at h; cases h
    | some d1 =>
      rw [hic] at h
      exact (ih d1 d' (i - 1) h).trans (interchangeAdj_shape d d1 (i - 1) hic)

theorem interchangeGen_shape (d d' : Diagram) (i j : Nat)
    (h : interchangeGen d i j = some d') : SameShape d' d := by
  unfold interchangeGen at h
  split_ifs at h with h1 h2 h3
  · cases h
    exact SameShape.refl d
  · exact bubbleDown_shape (j - i) d d' i h
  · exact bubbleUp_shape (i - j) d d' i h

theorem usL1_shape : ∀ (L : List Nat) (d : Diagram) (cap : Nat) (R : List Nat) (out),
    usL1 d cap L R = some out →
    out.1.length = L.length ∧ out.2.2.1 = cap + L.length
      ∧ out.2.2.2.length = R.length ∧ SameShape out.2.1 d := by
  intro L
  induction L with
  | nil =>
    intro d cap R out h
    cases h
    exact ⟨rfl, rfl, rfl, SameShape.refl d⟩
  | cons box L ih =>
    intro d cap R out h
    simp only [usL1] at h
    cases hic : interchangeGen d box cap with
    | none => rw [hic] at h; cases h
    | some d1 =>
      rw [hic] at h
      simp only [Option.some_bind] at h
      cases hrec : usL1 d1 (cap + 1) L (reindexL R box) with
      | none => rw [hrec] at h; cases h
      | some out1 =>
        rw [hrec] at h
        simp only [Option.map_some', Option.some.injEq] at h
        obtain ⟨hlen, hcap, hR, hshape⟩ := ih d1 (cap + 1) (reindexL R box) out1 hrec
        subst h
        refine ⟨by simp [hlen], by simp [hcap]; omega, ?_, hshape.trans (interchangeGen_shape d d1 box cap hic)⟩
        rw [hR]
        simp [reindexL]

theorem usL2_shape : ∀ (Rrev : List Nat) (d : Diagram) (cup : Nat) (out),
    usL2 d cup Rrev = some out →
    out.1.length = Rrev.length ∧ out.2.2 = cup - Rrev.length ∧ SameShape out.2.1 d := by
  intro Rrev
  induction Rrev with
  | nil =>
    intro d cup out h
    cases h
    exact ⟨rfl, rfl, SameShape.refl d⟩
  | cons box Rrev ih =>
    intro d cup out h
    simp only [usL2] at h
    cases hic : interchangeGen d box cup with
    | none => rw [hic] at h; cases h
    | some d1 =>
      rw [hic] at h
      simp only [Option.some_bind] at h
      cases hrec : usL2 d1 (cup - 1) Rrev with
      | none => rw [hrec] at h; cases h
      | some out1 =>
        rw [hrec] at h
        simp only [Option.map_some', Option.some.injEq] at h
        obtain ⟨hlen, hcup, hshape⟩ := ih d1 (cup - 1) out1 hrec
        subst h
        refine ⟨by simp [hlen], by simp [hcup]; omega,
          hshape.trans (interchangeGen_shape d d1 box cup hic)⟩

theorem usR1_shape : ∀ (Lrev : List Nat) (d : Diagram) (cup : Nat) (R : List Nat) (out),
    usR1 d cup Lrev R = some out →
    out.1.length = Lrev.length ∧ out.2.2.1 = cup - Lrev.length
      ∧ out.2.2.2.length = R.length ∧ SameShape out.2.1 d := by
  intro Lrev
  induction Lrev with
  | nil =>
    intro d cup R out h
    cases h
    exact ⟨rfl, rfl, rfl, SameShape.refl d⟩
  | cons box Lrev ih =>
    intro d cup R out h
    simp only [usR1] at h
    cases hic : interchangeGen d box cup with
    | none => rw [hic] at h; cases h
    | some d1 =>
      rw [hic] at h
      simp only [Option.some_bind] at h
      cases hrec : usR1 d1 (cup - 1) Lrev (reindexR R box) with
      | none => rw [hrec] at h; cases h
      | some out1 =>
        rw [hrec] at h
        simp only [Option.map_some', Option.some.injEq] at h
        obtain ⟨hlen, hcup, hR, hshape⟩ := ih d1 (cup - 1) (reindexR R box) out1 hrec
        subst h
        refine ⟨by simp [hlen], by simp [hcup]; omega, ?_,
          hshape.trans (interchangeGen_shape d d1 box cup hic)⟩
        rw [hR]
        simp [reindexR]

theorem usR2_shape : ∀ (R : List Nat) (d : Diagram) (cap : Nat) (out),
    usR2 d cap R = some out →
    out.1.length = R.length ∧ out.2.2 = cap + R.length ∧ SameShape out.2.1 d := by
  intro R
  induction R with
  | nil =>
    intro d cap out h
    cases h
    exact ⟨rfl, rfl, SameShape.refl d⟩
  | cons box R ih =>
    intro d cap out h
    simp only [usR2] at h
    cases hic : interchangeGen d box cap with
    | none => rw [hic] at h; cases h
    | some d1 =>
      rw [hic] at h
      simp only [Option.some_bind] at h
      cases hrec : usR2 d1 (cap + 1) R with
      | none => rw [hrec] at h; cases h
      | some out1 =>
        rw [hrec] at h
        simp only [Option.map_some', Option.some.injEq] at h
        obtain ⟨hlen, hcap, hshape⟩ := ih d1 (cap + 1) out1 hrec
        subst h
        refine ⟨by simp [hlen], by simp [hcap]; omega,
          hshape.trans (interchangeGen_shape d d1 box cap hic)⟩

theorem drop_sublist_drop_of_le {α : Type} (l : List α) {m n : Nat} (h : m ≤ n) :
    List.Sublist (l.drop n) (l.drop m) := by
  have e : l.drop n = (l.drop m).drop (n - m) := by
    rw [List.drop_drop]
    congr 1
    omega
  rw [e]
  exact List.drop_sublist ..

theorem splice_sublist {α : Type} (l : List α) (a b : Nat) (hab : a ≤ b) :
    List.Sublist (l.take a ++ l.drop (b + 1)) l := by
  have h1 : List.Sublist (l.drop (b + 1)) (l.drop a) :=
    drop_sublist_drop_of_le l (by omega)
  have h2 := h1.append_left (l.take a)
  rwa [List.take_append_drop] at h2

theorem boxesOf_getElem (d : Diagram) (p : Nat) : (boxesOf d)[p]? = boxAt? d p := by
  simp [boxesOf, boxAt?, List.getElem?_map]

/-- An adjacent interchange swaps the generators at `i` and `i + 1` and
leaves every other generator in place. -/
theorem interchangeAdj_boxAt (d d' : Diagram) (i : Nat)
    (h : interchangeAdj d i = some d') :
    boxAt? d' i = boxAt? d (i + 1)
      ∧ boxAt? d' (i + 1) = boxAt? d i
      ∧ ∀ p, p ≠ i → p ≠ i + 1 → boxAt? d' p = boxAt? d p := by
  unfold interchangeAdj at h
  cases hx : d.layers[i]? with
  | none => rw [hx] at h; cases h
  | some p0 =>
    cases hy : d.layers[i + 1]? with
    | none => rw [hx, hy] at h; cases h
    | some p1 =>
      obtain ⟨b0, o0⟩ := p0
      obtain ⟨b1, o1⟩ := p1
      rw [hx, hy] at h
      simp only at h
      have hi : i < d.layers.length := by
        by_contra hc
        rw [List.getElem?_eq_none (by omega)] at hx
        cases hx
      have hi1 : i + 1 < d.layers.length := by
        by_contra hc
        rw [List.getElem?_eq_none (by omega)] at hy
        cases hy
      have key : ∀ (u v : Nat),
          boxAt? ⟨d.dom, d.cod, (d.layers.set i (b1, u)).set (i + 1) (b0, v)⟩ i
              = boxAt? d (i + 1)
            ∧ boxAt? ⟨d.dom, d.cod, (d.layers.set i (b1, u)).set (i + 1) (b0, v)⟩ (i + 1)
              = boxAt? d i
            ∧ ∀ p, p ≠ i → p ≠ i + 1 →
              boxAt? ⟨d.dom, d.cod, (d.layers.set i (b1, u)).set (i + 1) (b0, v)⟩ p
                = boxAt? d p := by
        intro u v
        refine ⟨?_, ?_, ?_⟩
        · show (((d.layers.set i (b1, u)).set (i + 1) (b0, v))[i]?).map Prod.fst
            = (d.layers[i + 1]?).map Prod.fst
          rw [List.getElem?_set_ne (by omega : i + 1 ≠ i)]
          rw [List.getElem?_set_self hi, hy]
          rfl
        · show (((d.layers.set i (b1, u)).set (i + 1) (b0, v))[i + 1]?).map Prod.fst
            = (d.layers[i]?).map Prod.fst
          rw [List.getElem?_set_self (by rw [List.length_set]; exact hi1), hx]
          rfl
        · intro p hpi hpi1
          show (((d.layers.set i (b1, u)).set (i + 1) (b0, v))[p]?).map Prod.fst
            = (d.layers[p]?).map Prod.fst
          rw [List.getElem?_set_ne (by omega : i + 1 ≠ p),
            List.getElem?_set_ne (by omega : i ≠ p)]
      split_ifs at h with h1 h2
      · cases h
        exact key _ _
      · cases h
        exact key _ _

/-- `bubbleDown` carries the generator at `i` down to `i + k`, shifts
the generators strictly between up by one, and leaves the rest. -/
theorem bubbleDown_track : ∀ (k : Nat) (d d' : Diagram) (i : Nat),
    bubbleDown d i k = some d' →
    (∀ p, p < i → boxAt? d' p = boxAt? d p)
      ∧ (∀ p, i + k < p → boxAt? d' p = boxAt? d p)
      ∧ (∀ p, i ≤ p → p < i + k → boxAt? d' p = boxAt? d (p + 1))
      ∧ boxAt? d' (i + k) = boxAt? d i := by
  intro k
  induction k with
  | zero =>
    intro d d' i h
    cases h
    exact ⟨fun p _ => rfl, fun p _ => rfl, fun p h1 h2 => absurd h2 (by omega), rfl⟩
  | succ k ih =>
    intro d d' i h
    simp only [bubbleDown] at h
    cases hic : interchangeAdj d i with
    | none => rw [hic] at h; cases h
    | some d1 =>
      rw [hic] at h
      obtain ⟨A1, A2, A3⟩ := interchangeAdj_boxAt d d1 i hic
      obtain ⟨I1, I2, I3, I4⟩ := ih d1 d' (i + 1) h
      refine ⟨?_, ?_, ?_, ?_⟩
      · intro p hp
        rw [I1 p (by omega), A3 p (by omega) (by omega)]
      · intro p hp
        rw [I2 p (by omega), A3 p (by omega) (by omega)]
      · intro p hp1 hp2
        rcases Nat.eq_or_lt_of_le hp1 with he | hlt
        · rw [← he]
          rw [I1 i (by omega), A1]
        · rw [I3 p (by omega) (by omega), A3 (p + 1) (by omega) (by omega)]
      · rw [show i + (k + 1) = i + 1 + k from by omega, I4, A2]

/-- `bubbleUp` carries the generator at `i` up to `i - k`, shifts the
generators strictly between down by one, and leaves the rest. -/
theorem bubbleUp_track : ∀ (k : Nat) (d d' : Diagram) (i : Nat), k ≤ i →
    bubbleUp d i k = some d' →
    (∀ p, p < i - k → boxAt? d' p = boxAt? d p)
      ∧ (∀ p, i < p → boxAt? d' p = boxAt? d p)
      ∧ (∀ p, i - k ≤ p → p < i → boxAt? d' (p + 1) = boxAt? d p)
      ∧ boxAt? d' (i - k) = boxAt? d i := by
  intro k
  induction k with
  | zero =>
    intro d d' i hk h
    cases h
    exact ⟨fun p _ => rfl, fun p _ => rfl, fun p h1 h2 => absurd h2 (by omega), rfl⟩
  | succ k ih =>
    intro d d' i hk h
    simp only [bubbleUp] at h
    cases hic : interchangeAdj d (i - 1) with
    | none => rw [hic] at h; cases h
    | some d1 =>
      rw [hic] at h
      have hi1 : i - 1 + 1 = i := by omega
      obtain ⟨A1, A2, A3⟩ := interchangeAdj_boxAt d d1 (i - 1) hic
      rw [hi1] at A1 A2 A3
      obtain ⟨I1, I2, I3, I4⟩ := ih d1 d' (i - 1) (by omega) h
      have hs : i - 1 - k = i - (k + 1) := by omega
      rw [hs] at I1 I3 I4
      refine ⟨?_, ?_, ?_, ?_⟩
      · intro p hp
        rw [I1 p hp, A3 p (by omega) (by omega)]
      · intro p hp
        rw [I2 p (by omega), A3 p (by omega) (by omega)]
      · intro p hp1 hp2
        by_cases hpe : p = i - 1
        · subst hpe
          rw [hi1, I2 i (by omega), A2]
        · rw [I3 p (by omega) (by omega), A3 p hpe (by omega)]
      · rw [I4, A1]

/-- Positional effect of a downward general interchange (`i < j`):
everything outside `[i, j]` is fixed and the generators in `(i, j]`
shift up by one. -/
theorem interchangeGen_track_down (d d' : Diagram) (i j : Nat) (hij : i < j)
    (h : interchangeGen d i j = some d') :
    (∀ p, p < i → boxAt? d' p = boxAt? d p)
      ∧ (∀ p, j < p → boxAt? d' p = boxAt? d p)
      ∧ (∀ p, i < p → p ≤ j → boxAt? d' (p - 1) = boxAt? d p) := by
  unfold interchangeGen at h
  split_ifs at h with h1 h2
  · exact absurd h2 (by omega)
  · obtain ⟨B1, B2, B3, B4⟩ := bubbleDown_track (j - i) d d' i h
    have hij' : i + (j - i) = j := by omega
    rw [hij'] at B2 B3 B4
    refine ⟨B1, B2, ?_⟩
    intro p hp1 hp2
    rw [B3 (p - 1) (by omega) (by omega), show p - 1 + 1 = p from by omega]

/-- Positional effect of an upward general interchange (`j < i`):
everything outside `[j, i]` is fixed and the generators in `[j, i)`
shift down by one. -/
theorem interchangeGen_track_up (d d' : Diagram) (i j : Nat) (hji : j < i)
    (h : interchangeGen d i j = some d') :
    (∀ p, p < j → boxAt? d' p = boxAt? d p)
      ∧ (∀ p, i < p → boxAt? d' p = boxAt? d p)
      ∧ (∀ p, j ≤ p → p < i → boxAt? d' (p + 1) = boxAt? d p) := by
  unfold interchangeGen at h
  split_ifs at h with h1 h2 h3
  · exact absurd h2 (by omega)
  · exact absurd h3 (by omega)
  · obtain ⟨B1, B2, B3, B4⟩ := bubbleUp_track (i - j) d d' i (by omega) h
    have hij' : i - (i - j) = j := by omega
    rw [hij'] at B1 B3 B4
    exact ⟨B1, B2, B3⟩

/-- `reindexL` preserves strict sortedness of indices distinct from the
moved box. -/
theorem reindexL_pairwise (R : List Nat) (box : Nat)
    (hRp : List.Pairwise (· < ·) R) (hne : ∀ r ∈ R, r ≠ box) :
    List.Pairwise (· < ·) (reindexL R box) := by
  unfold reindexL
  rw [List.pairwise_map]
  refine List.Pairwise.imp_of_mem ?_ hRp
  intro a b ha hb hab
  have h1 := hne a ha
  have h2 := hne b hb
  split_ifs <;> omega

/-- Bounds are preserved and the lower end tightens by one under
`reindexL`. -/
theorem reindexL_bounds (R : List Nat) (box cap cupIdx : Nat)
    (hRb : ∀ r ∈ R, cap < r ∧ r < cupIdx)
    (hne : ∀ r ∈ R, r ≠ box) (hbox : cap < box ∧ box < cupIdx) :
    ∀ r ∈ reindexL R box, cap + 1 < r ∧ r < cupIdx := by
  intro r hr
  unfold reindexL at hr
  rw [List.mem_map] at hr
  obtain ⟨r0, hr0, rfl⟩ := hr
  have h1 := hRb r0 hr0
  have h2 := hne r0 hr0
  split_ifs with hc <;> omega

/-- Disjointness from the remaining obstruction indices is preserved
under `reindexL` when those all lie above the moved box. -/
theorem reindexL_disj (R : List Nat) (box : Nat) (L : List Nat)
    (hdisj : ∀ r ∈ R, ∀ b ∈ box :: L, r ≠ b)
    (hLgt : ∀ b ∈ L, box < b) :
    ∀ r ∈ reindexL R box, ∀ b ∈ L, r ≠ b := by
  intro r hr b hb
  unfold reindexL at hr
  rw [List.mem_map] at hr
  obtain ⟨r0, hr0, rfl⟩ := hr
  have h1 := hdisj r0 hr0 b (List.mem_cons_of_mem _ hb)
  have h2 := hdisj r0 hr0 box (List.mem_cons_self _ _)
  have h3 := hLgt b hb
  split_ifs with hc <;> omega

/-- `reindexR` preserves strict sortedness of indices distinct from the
moved box. -/
theorem reindexR_pairwise (R : List Nat) (box : Nat)
    (hRp : List.Pairwise (· < ·) R) (hne : ∀ r ∈ R, r ≠ box) :
    List.Pairwise (· < ·) (reindexR R box) := by
  unfold reindexR
  rw [List.pairwise_map]
  refine List.Pairwise.imp_of_mem ?_ hRp
  intro a b ha hb hab
  have h1 := hne a ha
  have h2 := hne b hb
  split_ifs <;> omega

/-- Bounds tighten at the upper end by one under `reindexR`. -/
theorem reindexR_bounds (R : List Nat) (box cap cup : Nat)
    (hRb : ∀ r ∈ R, cap < r ∧ r < cup)
    (hne : ∀ r ∈ R, r ≠ box) (hbox : cap < box ∧ box < cup) :
    ∀ r ∈ reindexR R box, cap < r ∧ r < cup - 1 := by
  intro r hr
  unfold reindexR at hr
  rw [List.mem_map] at hr
  obtain ⟨r0, hr0, rfl⟩ := hr
  have h1 := hRb r0 hr0
  have h2 := hne r0 hr0
  split_ifs with hc <;> omega

/-- Disjointness from the remaining obstruction indices is preserved
under `reindexR` when those all lie below the moved box. -/
theorem reindexR_disj (R : List Nat) (box : Nat) (L : List Nat)
    (hdisj : ∀ r ∈ R, ∀ b ∈ box :: L, r ≠ b)
    (hLlt : ∀ b ∈ L, b < box) :
    ∀ r ∈ reindexR R box, ∀ b ∈ L, r ≠ b := by
  intro r hr b hb
  unfold reindexR at hr
  rw [List.mem_map] at hr
  obtain ⟨r0, hr0, rfl⟩ := hr
  have h1 := hdisj r0 hr0 b (List.mem_cons_of_mem _ hb)
  have h2 := hdisj r0 hr0 box (List.mem_cons_self _ _)
  have h3 := hLlt b hb
  split_ifs with hc <;> omega

/-- The first left-snake loop keeps the cap generator at the advancing
cap index and the cup generator in place, and keeps the right
obstruction indices sorted, strictly between the final cap index and the
cup. -/
theorem usL1_track : ∀ (L : List Nat) (d : Diagram) (cap : Nat) (R : List Nat) (out)
    (cupIdx : Nat),
    usL1 d cap L R = some out →
    List.Pairwise (· < ·) L →
    (∀ b ∈ L, cap < b ∧ b < cupIdx) →
    List.Pairwise (· < ·) R →
    (∀ r ∈ R, cap < r ∧ r < cupIdx) →
    (∀ r ∈ R, ∀ b ∈ L, r ≠ b) →
    boxAt? out.2.1 (cap + L.length) = boxAt? d cap
      ∧ boxAt? out.2.1 cupIdx = boxAt? d cupIdx
      ∧ List.Pairwise (· < ·) out.2.2.2
      ∧ (∀ r ∈ out.2.2.2, cap + L.length < r ∧ r < cupIdx) := by
  intro L
  induction L with
  | nil =>
    intro d cap R out cupIdx h _ _ hRp hRb _
    cases h
    exact ⟨rfl, rfl, hRp, by simpa using hRb⟩
  | cons box L ih =>
    intro d cap R out cupIdx h hLp hLb hRp hRb hdisj
    simp only [usL1] at h
    cases hic : interchangeGen d box cap with
    | none => rw [hic] at h; cases h
    | some d1 =>
      rw [hic] at h
      simp only [Option.some_bind] at h
      cases hrec : usL1 d1 (cap + 1) L (reindexL R box) with
      | none => rw [hrec] at h; cases h
      | some out1 =>
        rw [hrec] at h
        simp only [Option.map_some', Option.some.injEq] at h
        subst h
        have hbox : cap < box ∧ box < cupIdx := hLb box (List.mem_cons_self _ _)
        obtain ⟨G1, G2, G3⟩ := interchangeGen_track_up d d1 box cap hbox.1 hic
        have hhead : ∀ b ∈ L, box < b := (List.pairwise_cons.mp hLp).1
        have hLb' : ∀ b ∈ L, cap + 1 < b ∧ b < cupIdx := by
          intro b hb
          have hb1 := hLb b (List.mem_cons_of_mem _ hb)
          have hb2 := hhead b hb
          omega
        have hne : ∀ r ∈ R, r ≠ box := by
          intro r hr
          exact hdisj r hr box (List.mem_cons_self _ _)
        have hRp' := reindexL_pairwise R box hRp hne
        have hRb' := reindexL_bounds R box cap cupIdx hRb hne hbox
        have hdisj' := reindexL_disj R box L hdisj hhead
        obtain ⟨C1, C2, C3, C4⟩ := ih d1 (cap + 1) (reindexL R box) out1 cupIdx hrec
          (List.pairwise_cons.mp hLp).2 hLb' hRp' hRb' hdisj'
        refine ⟨?_, ?_, C3, ?_⟩
        · rw [show cap + (box :: L).length = cap + 1 + L.length from by
            simp only [List.length_cons]
            omega]
          rw [C1]
          exact G3 cap (le_refl cap) hbox.1
        · rw [C2]
          exact G2 cupIdx hbox.2
        · intro r hr
          have hr1 := C4 r hr
          simp only [List.length_cons]
          omega

/-- The second left-snake loop keeps the cap generator in place and
carries the cup generator up to the shrinking cup index. -/
theorem usL2_track : ∀ (Rrev : List Nat) (d : Diagram) (cup : Nat) (out) (capIdx : Nat),
    usL2 d cup Rrev = some out →
    List.Pairwise (· > ·) Rrev →
    (∀ r ∈ Rrev, capIdx < r ∧ r < cup) →
    boxAt? out.2.1 capIdx = boxAt? d capIdx
      ∧ boxAt? out.2.1 (cup - Rrev.length) = boxAt? d cup := by
  intro Rrev
  induction Rrev with
  | nil =>
    intro d cup out capIdx h _ _
    cases h
    exact ⟨rfl, rfl⟩
  | cons box Rrev ih =>
    intro d cup out capIdx h hp hb
    simp only [usL2] at h
    cases hic : interchangeGen d box cup with
    | none => rw [hic] at h; cases h
    | some d1 =>
      rw [hic] at h
      simp only [Option.some_bind] at h
      cases hrec : usL2 d1 (cup - 1) Rrev with
      | none => rw [hrec] at h; cases h
      | some out1 =>
        rw [hrec] at h
        simp only [Option.map_some', Option.some.injEq] at h
        subst h
        have hbox := hb box (List.mem_cons_self _ _)
        obtain ⟨G1, G2, G3⟩ := interchangeGen_track_down d d1 box cup hbox.2 hic
        have hhead : ∀ b ∈ Rrev, b < box := (List.pairwise_cons.mp hp).1
        have hb' : ∀ r ∈ Rrev, capIdx < r ∧ r < cup - 1 := by
          intro r hr
          have h1 := hb r (List.mem_cons_of_mem _ hr)
          have h2 := hhead r hr
          omega
        obtain ⟨C1, C2⟩ := ih d1 (cup - 1) out1 capIdx hrec (List.pairwise_cons.mp hp).2 hb'
        refine ⟨?_, ?_⟩
        · rw [C1]
          exact G1 capIdx hbox.1
        · rw [show cup - (box :: Rrev).length = cup - 1 - Rrev.length from by
            simp only [List.length_cons]
            omega]
          rw [C2]
          exact G3 cup hbox.2 (le_refl cup)

/-- The first right-snake loop keeps the cap generator in place and
carries the cup generator up to the shrinking cup index, keeping the
right obstruction indices sorted, strictly between the cap and the final
cup index. -/
theorem usR1_track : ∀ (Lrev : List Nat) (d : Diagram) (cup : Nat) (R : List Nat) (out)
    (capIdx : Nat),
    usR1 d cup Lrev R = some out →
    List.Pairwise (· > ·) Lrev →
    (∀ b ∈ Lrev, capIdx < b ∧ b < cup) →
    List.Pairwise (· < ·) R →
    (∀ r ∈ R, capIdx < r ∧ r < cup) →
    (∀ r ∈ R, ∀ b ∈ Lrev, r ≠ b) →
    boxAt? out.2.1 capIdx = boxAt? d capIdx
      ∧ boxAt? out.2.1 (cup - Lrev.length) = boxAt? d cup
      ∧ List.Pairwise (· < ·) out.2.2.2
      ∧ (∀ r ∈ out.2.2.2, capIdx < r ∧ r < cup - Lrev.length) := by
  intro Lrev
  induction Lrev with
  | nil =>
    intro d cup R out capIdx h _ _ hRp hRb _
    cases h
    exact ⟨rfl, rfl, hRp, by simpa using hRb⟩
  | cons box Lrev ih =>
    intro d cup R out capIdx h hLp hLb hRp hRb hdisj
    simp only [usR1] at h
    cases hic : interchangeGen d box cup with
    | none => rw [hic] at h; cases h
    | some d1 =>
      rw [hic] at h
      simp only [Option.some_bind] at h
      cases hrec : usR1 d1 (cup - 1) Lrev (reindexR R box) with
      | none => rw [hrec] at h; cases h
      | some out1 =>
        rw [hrec] at h
        simp only [Option.map_some', Option.some.injEq] at h
        subst h
        have hbox : capIdx < box ∧ box < cup := hLb box (List.mem_cons_self _ _)
        obtain ⟨G1, G2, G3⟩ := interchangeGen_track_down d d1 box cup hbox.2 hic
        have hhead : ∀ b ∈ Lrev, b < box := (List.pairwise_cons.mp hLp).1
        have hLb' : ∀ b ∈ Lrev, capIdx < b ∧ b < cup - 1 := by
          intro b hb
          have hb1 := hLb b (List.mem_cons_of_mem _ hb)
          have hb2 := hhead b hb
          omega
        have hne : ∀ r ∈ R, r ≠ box := by
          intro r hr
          exact hdisj r hr box (List.mem_cons_self _ _)
        have hRp' := reindexR_pairwise R box hRp hne
        have hRb' := reindexR_bounds R box capIdx cup hRb hne hbox
        have hdisj' := reindexR_disj R box Lrev hdisj hhead
        obtain ⟨C1, C2, C3, C4⟩ := ih d1 (cup - 1) (reindexR R box) out1 capIdx hrec
          (List.pairwise_cons.mp hLp).2 hLb' hRp' hRb' hdisj'
        refine ⟨?_, ?_, C3, ?_⟩
        · rw [C1]
          exact G1 capIdx hbox.1
        · rw [show cup - (box :: Lrev).length = cup - 1 - Lrev.length from by
            simp only [List.length_cons]
            omega]
          rw [C2]
          exact G3 cup hbox.2 (le_refl cup)
        · intro r hr
          have hr1 := C4 r hr
          simp only [List.length_cons]
          omega

/-- The second right-snake loop keeps the cup generator in place and
carries the cap generator down to the advancing cap index. -/
theorem usR2_track : ∀ (R : List Nat) (d : Diagram) (cap : Nat) (out) (cupIdx : Nat),
    usR2 d cap R = some out →
    List.Pairwise (· < ·) R →
    (∀ r ∈ R, cap < r ∧ r < cupIdx) →
    boxAt? out.2.1 (cap + R.length) = boxAt? d cap
      ∧ boxAt? out.2.1 cupIdx = boxAt? d cupIdx := by
  intro R
  induction R with
  | nil =>
    intro d cap out cupIdx h _ _
    cases h
    exact ⟨rfl, rfl⟩
  | cons box R ih =>
    intro d cap out cupIdx h hp hb
    simp only [usR2] at h
    cases hic : interchangeGen d box cap with
    | none => rw [hic] at h; cases h
    | some d1 =>
      rw [hic] at h
      simp only [Option.some_bind] at h
      cases hrec : usR2 d1 (cap + 1) R with
      | none => rw [hrec] at h; cases h
      | some out1 =>
        rw [hrec] at h
        simp only [Option.map_some', Option.some.injEq] at h
        subst h
        have hbox := hb box (List.mem_cons_self _ _)
        obtain ⟨G1, G2, G3⟩ := interchangeGen_track_up d d1 box cap hbox.1 hic
        have hhead : ∀ b ∈ R, box < b := (List.pairwise_cons.mp hp).1
        have hb' : ∀ r ∈ R, cap + 1 < r ∧ r < cupIdx := by
          intro r hr
          have h1 := hb r (List.mem_cons_of_mem _ hr)
          have h2 := hhead r hr
          omega
        obtain ⟨C1, C2⟩ := ih d1 (cap + 1) out1 cupIdx hrec (List.pairwise_cons.mp hp).2 hb'
        refine ⟨?_, ?_⟩
        · rw [show cap + (box :: R).length = cap + 1 + R.length from by
            simp only [List.length_cons]
            omega]
          rw [C1]
          exact G3 cap (le_refl cap) hbox.1
        · rw [C2]
          exact G2 cupIdx hbox.2

/-- Extracting two adjacent known elements of a list to the front is a
permutation. -/
theorem perm_extract_two {α : Type} (l : List α) (a : Nat) (x y : α)
    (hx : l[a]? = some x) (hy : l[a + 1]? = some y) :
    List.Perm (x :: y :: (l.take a ++ l.drop (a + 2))) l := by
  have ha : a < l.length := by
    by_contra hc
    rw [List.getElem?_eq_none (by omega)] at hx
    cases hx
  have ha1 : a + 1 < l.length := by
    by_contra hc
    rw [List.getElem?_eq_none (by omega)] at hy
    cases hy
  have hxv : l[a] = x := Option.some.inj ((List.getElem?_eq_getElem ha).symm.trans hx)
  have hyv : l[a + 1] = y := Option.some.inj ((List.getElem?_eq_getElem ha1).symm.trans hy)
  have hdecomp : l = l.take a ++ x :: y :: l.drop (a + 2) := by
    conv_lhs => rw [← List.take_append_drop a l]
    congr 1
    rw [List.drop_eq_getElem_cons ha, hxv]
    congr 1
    rw [List.drop_eq_getElem_cons ha1, hyv]
  have hgoal : List.Perm (x :: y :: (l.take a ++ l.drop (a + 2)))
      (l.take a ++ x :: y :: l.drop (a + 2)) :=
    ((List.perm_middle.symm).cons x).trans List.perm_middle.symm
  conv_rhs => rw [hdecomp]
  exact hgoal

/-- C4: a successful run of `unsnake` on a snake whose cup sits
`1 + |L| + |R|` layers below the cap, with the obstruction index lists
sorted, disjoint and strictly between the cap and the cup (the geometry
`follow_wire` guarantees), emits exactly one diagram per interchange
(one for each obstruction) followed by the final spliced diagram; the
final diagram has exactly two fewer layers, its generators are a
sub-permutation of the original ones, and its generator multiset is
exactly the original one minus the Cap generator at index `cap` and the
Cup generator at index `cup`: those two layers are deleted and every
other layer is kept. -/
theorem c4_unsnake_spec (d : Diagram) (cup cap : Nat) (L R : List Nat) (ls : Bool)
    (out : List Diagram)
    (h1 : cup = cap + 1 + L.length + R.length)
    (h2 : cup < d.layers.length)
    (hLp : List.Pairwise (· < ·) L)
    (hLb : ∀ b ∈ L, cap < b ∧ b < cup)
    (hRp : List.Pairwise (· < ·) R)
    (hRb : ∀ r ∈ R, cap < r ∧ r < cup)
    (hdisj : ∀ r ∈ R, ∀ b ∈ L, r ≠ b)
    (h3 : unsnake d cup cap L R ls = some out) :
    out.length = L.length + R.length + 1
      ∧ ∃ dl, out.getLast? = some dl
          ∧ dl.layers.length + 2 = d.layers.length
          ∧ List.Subperm (boxesOf dl) (boxesOf d)
          ∧ ∀ capB cupB, boxAt? d cap = some capB → boxAt? d cup = some cupB →
              List.Perm (capB :: cupB :: boxesOf dl) (boxesOf d) := by
  unfold unsnake at h3
  cases ls with
  | true =>
    simp only [if_true] at h3
    cases ho1 : usL1 d cap L R with
    | none => rw [ho1] at h3; cases h3
    | some o1 =>
      rw [ho1] at h3
      simp only [Option.some_bind] at h3
      cases ho2 : usL2 o1.2.1 cup o1.2.2.2.reverse with
      | none => rw [ho2] at h3; cases h3
      | some o2 =>
        rw [ho2] at h3
        simp only [Option.map_some', Option.some.injEq] at h3
        obtain ⟨hl1, hcap1, hR1, hsh1⟩ := usL1_shape L d cap R o1 ho1
        obtain ⟨hl2, hcup2, hsh2⟩ := usL2_shape o1.2.2.2.reverse o1.2.1 cup o2 ho2
        have hshape : SameShape o2.2.1 d := hsh2.trans hsh1
        have hlenR : o1.2.2.2.reverse.length = R.length := by simp [hR1]
        obtain ⟨T1, T2, T3, T4⟩ := usL1_track L d cap R o1 cup ho1 hLp hLb hRp hRb hdisj
        have hrevp : List.Pairwise (· > ·) o1.2.2.2.reverse := by
          rw [List.pairwise_reverse]
          simpa [gt_iff_lt] using T3
        have hrevb : ∀ r ∈ o1.2.2.2.reverse, cap + L.length < r ∧ r < cup := by
          intro r hr
          exact T4 r (List.mem_reverse.mp hr)
        obtain ⟨U1, U2⟩ := usL2_track o1.2.2.2.reverse o1.2.1 cup o2 (cap + L.length)
          ho2 hrevp hrevb
        subst h3
        constructor
        · simp only [List.length_append, List.length_singleton]
          omega
        · refine ⟨spliceOut o2.2.1 o1.2.2.1 o2.2.2, ?_, ?_, ?_, ?_⟩
          · rw [show o1.1 ++ o2.1 ++ [spliceOut o2.2.1 o1.2.2.1 o2.2.2]
              = (o1.1 ++ o2.1) ++ [spliceOut o2.2.1 o1.2.2.1 o2.2.2] from rfl]
            exact List.getLast?_concat ..
          · have hlen : o2.2.1.layers.length = d.layers.length := hshape.2.2.1
            simp only [spliceOut]
            rw [List.length_append, List.length_take, List.length_drop, hlen]
            rw [hcap1, hcup2, hlenR]
            omega
          · have hsub : List.Sublist
                (boxesOf (spliceOut o2.2.1 o1.2.2.1 o2.2.2)) (boxesOf o2.2.1) := by
              simp only [spliceOut, boxesOf, List.map_append]
              simpa using (splice_sublist o2.2.1.layers o1.2.2.1 o2.2.2
                (by rw [hcap1, hcup2, hlenR]; omega)).map Prod.fst
            exact hsub.subperm.trans hshape.2.2.2.subperm
          · intro capB cupB hcapB hcupB
            have hbx : (boxesOf o2.2.1)[cap + L.length]? = some capB := by
              rw [boxesOf_getElem, U1, T1]
              exact hcapB
            have hby : (boxesOf o2.2.1)[cap + L.length + 1]? = some cupB := by
              rw [boxesOf_getElem]
              rw [show cap + L.length + 1 = cup - o1.2.2.2.reverse.length from by
                rw [hlenR]
                omega]
              rw [U2, T2]
              exact hcupB
            have hperm := perm_extract_two (boxesOf o2.2.1) (cap + L.length) capB cupB hbx hby
            have hdl : boxesOf (spliceOut o2.2.1 o1.2.2.1 o2.2.2)
                = (boxesOf o2.2.1).take (cap + L.length)
                  ++ (boxesOf o2.2.1).drop (cap + L.length + 2) := by
              simp only [spliceOut, boxesOf, List.map_append, List.map_take, List.map_drop]
              rw [hcap1, hcup2, hlenR]
              rw [show cup - R.length + 1 = cap + L.length + 2 from by omega]
            rw [hdl]
            exact hperm.trans hshape.2.2.2
  | false =>
    rw [if_neg Bool.false_ne_true] at h3
    cases ho1 : usR1 d cup L.reverse R with
    | none => rw [ho1] at h3; cases h3
    | some o1 =>
      rw [ho1] at h3
      simp only [Option.some_bind] at h3
      cases ho2 : usR2 o1.2.1 cap o1.2.2.2 with
      | none => rw [ho2] at h3; cases h3
      | some o2 =>
        rw [ho2] at h3
        simp only [Option.map_some', Option.some.injEq] at h3
        obtain ⟨hl1, hcup1, hR1, hsh1⟩ := usR1_shape L.reverse d cup R o1 ho1
        obtain ⟨hl2, hcap2, hsh2⟩ := usR2_shape o1.2.2.2 o1.2.1 cap o2 ho2
        have hshape : SameShape o2.2.1 d := hsh2.trans hsh1
        have hlenL : L.reverse.length = L.length := by simp
        have hLrevp : List.Pairwise (· > ·) L.reverse := by
          rw [List.pairwise_reverse]
          simpa [gt_iff_lt] using hLp
        have hLrevb : ∀ b ∈ L.reverse, cap < b ∧ b < cup := by
          intro b hb
          exact hLb b (List.mem_reverse.mp hb)
        have hdisjrev : ∀ r ∈ R, ∀ b ∈ L.reverse, r ≠ b := by
          intro r hr b hb
          exact hdisj r hr b (List.mem_reverse.mp hb)
        obtain ⟨T1, T2, T3, T4⟩ := usR1_track L.reverse d cup R o1 cap ho1
          hLrevp hLrevb hRp hRb hdisjrev
        obtain ⟨U1, U2⟩ := usR2_track o1.2.2.2 o1.2.1 cap o2 (cup - L.reverse.length)
          ho2 T3 T4
        subst h3
        constructor
        · simp only [List.length_append, List.length_singleton]
          omega
        · refine ⟨spliceOut o2.2.1 o2.2.2 o1.2.2.1, ?_, ?_, ?_, ?_⟩
          · rw [show o1.1 ++ o2.1 ++ [spliceOut o2.2.1 o2.2.2 o1.2.2.1]
              = (o1.1 ++ o2.1) ++ [spliceOut o2.2.1 o2.2.2 o1.2.2.1] from rfl]
            exact List.getLast?_concat ..
          · have hlen : o2.2.1.layers.length = d.layers.length := hshape.2.2.1
            simp only [spliceOut]
            rw [List.length_append, List.length_take, List.length_drop, hlen]
            rw [hcap2, hcup1, hR1, hlenL]
            omega
          · have hsub : List.Sublist
                (boxesOf (spliceOut o2.2.1 o2.2.2 o1.2.2.1)) (boxesOf o2.2.1) := by
              simp only [spliceOut, boxesOf, List.map_append]
              simpa using (splice_sublist o2.2.1.layers o2.2.2 o1.2.2.1
                (by rw [hcap2, hcup1, hR1, hlenL]; omega)).map Prod.fst
            exact hsub.subperm.trans hshape.2.2.2.subperm
          · intro capB cupB hcapB hcupB
            have hbx : (boxesOf o2.2.1)[cap + R.length]? = some capB := by
              rw [boxesOf_getElem]
              rw [show cap + R.length = cap + o1.2.2.2.length from by rw [hR1]]
              rw [U1, T1]
              exact hcapB
            have hby : (boxesOf o2.2.1)[cap + R.length + 1]? = some cupB := by
              rw [boxesOf_getElem]
              rw [show cap + R.length + 1 = cup - L.reverse.length from by
                rw [hlenL]
                omega]
              rw [U2, T2]
              exact hcupB
            have hperm := perm_extract_two (boxesOf o2.2.1) (cap + R.length) capB cupB hbx hby
            have hdl : boxesOf (spliceOut o2.2.1 o2.2.2 o1.2.2.1)
                = (boxesOf o2.2.1).take (cap + R.length)
                  ++ (boxesOf o2.2.1).drop (cap + R.length + 2) := by
              simp only [spliceOut, boxesOf, List.map_append, List.map_take, List.map_drop]
              rw [hcap2, hcup1, hR1, hlenL]
              rw [show cup - L.length + 1 = cap + R.length + 2 from by omega]
            rw [hdl]
            exact hperm.trans hshape.2.2.2

end Discopy

namespace Discopy

/-- Witness for C4: the elimination of the right snake of
`transpose(Id(a @ b))`, with one left obstruction, emits two diagrams;
the final one has two layers fewer, and its generators are exactly the
original ones minus the cap at index 0 and the cup at index 2. -/
theorem c4_unsnake_spec_w :
    [Diagram.mk (tyR [Ob.mk "a" 0, Ob.mk "b" 0]) (tyR [Ob.mk "a" 0, Ob.mk "b" 0])
        (famMid 0 [Ob.mk "b" 0, Ob.mk "a" 0] 1),
      Diagram.mk (tyR [Ob.mk "a" 0, Ob.mk "b" 0]) (tyR [Ob.mk "a" 0, Ob.mk "b" 0])
        (famLayers 1 [Ob.mk "a" 0])].length = [1].length + ([] : List Nat).length + 1
      ∧ ∃ dl,
          [Diagram.mk (tyR [Ob.mk "a" 0, Ob.mk "b" 0]) (tyR [Ob.mk "a" 0, Ob.mk "b" 0])
              (famMid 0 [Ob.mk "b" 0, Ob.mk "a" 0] 1),
            Diagram.mk (tyR [Ob.mk "a" 0, Ob.mk "b" 0]) (tyR [Ob.mk "a" 0, Ob.mk "b" 0])
              (famLayers 1 [Ob.mk "a" 0])].getLast? = some dl
            ∧ dl.layers.length + 2 =
              (Diagram.mk (tyR [Ob.mk "a" 0, Ob.mk "b" 0]) (tyR [Ob.mk "a" 0, Ob.mk "b" 0])
                (famLayers 0 [Ob.mk "b" 0, Ob.mk "a" 0])).layers.length
            ∧ List.Subperm (boxesOf dl)
              (boxesOf (Diagram.mk (tyR [Ob.mk "a" 0, Ob.mk "b" 0])
                (tyR [Ob.mk "a" 0, Ob.mk "b" 0]) (famLayers 0 [Ob.mk "b" 0, Ob.mk "a" 0])))
            ∧ ∀ capB cupB,
              boxAt? (Diagram.mk (tyR [Ob.mk "a" 0, Ob.mk "b" 0])
                (tyR [Ob.mk "a" 0, Ob.mk "b" 0])
                (famLayers 0 [Ob.mk "b" 0, Ob.mk "a" 0])) 0 = some capB →
              boxAt? (Diagram.mk (tyR [Ob.mk "a" 0, Ob.mk "b" 0])
                (tyR [Ob.mk "a" 0, Ob.mk "b" 0])
                (famLayers 0 [Ob.mk "b" 0, Ob.mk "a" 0])) 2 = some cupB →
              List.Perm (capB :: cupB :: boxesOf dl)
                (boxesOf (Diagram.mk (tyR [Ob.mk "a" 0, Ob.mk "b" 0])
                  (tyR [Ob.mk "a" 0, Ob.mk "b" 0]) (famLayers 0 [Ob.mk "b" 0, Ob.mk "a" 0]))) :=
  c4_unsnake_spec
    (Diagram.mk (tyR [Ob.mk "a" 0, Ob.mk "b" 0]) (tyR [Ob.mk "a" 0, Ob.mk "b" 0])
      (famLayers 0 [Ob.mk "b" 0, Ob.mk "a" 0]))
    2 0 [1] [] false
    [Diagram.mk (tyR [Ob.mk "a" 0, Ob.mk "b" 0]) (tyR [Ob.mk "a" 0, Ob.mk "b" 0])
        (famMid 0 [Ob.mk "b" 0, Ob.mk "a" 0] 1),
      Diagram.mk (tyR [Ob.mk "a" 0, Ob.mk "b" 0]) (tyR [Ob.mk "a" 0, Ob.mk "b" 0])
        (famLayers 1 [Ob.mk "a" 0])]
    (by decide) (by decide) (by decide) (by decide) (by decide) (by decide) (by decide)
    (by decide)

end Discopy

namespace Discopy

theorem compD_assoc (a b c : Diagram) : compD (compD a b) c = compD a (compD b c) := by
  simp [compD, List.append_assoc]

theorem compD_idR (d : Diagram) : compD d (idD d.cod) = d := by
  cases d
  simp [compD, idD]

theorem FTy_append (F : Functor) (a b : Ty) : FTy F (a ++ b) = FTy F a ++ FTy F b := by
  simp [FTy]

theorem FTy_nil (F : Functor) : FTy F [] = [] := rfl

theorem tyR_append (a b : Ty) : tyR (a ++ b) = tyR b ++ tyR a := by
  simp [tyR]

theorem iterR_succ_out (t : Ty) (k : Nat) : iterR t (k + 1) = tyR (iterR t k) := by
  induction k generalizing t with
  | zero => rfl
  | succ k ih =>
    show iterR (tyR t) (k + 1) = tyR (iterR (tyR t) k)
    exact ih (tyR t)

theorem iterL_succ_out (t : Ty) (k : Nat) : iterL t (k + 1) = tyL (iterL t k) := by
  induction k generalizing t with
  | zero => rfl
  | succ k ih =>
    show iterL (tyL t) (k + 1) = tyL (iterL (tyL t) k)
    exact ih (tyL t)

theorem obImg_r (F : Functor) (o : Ob) : obImg F (Ob.r o) = tyR (obImg F o) := by
  simp only [obImg, Ob.r]
  by_cases h0 : o.z < 0
  · by_cases h1 : o.z + 1 < 0
    · rw [if_pos h1, if_pos h0]
      have e : o.z.natAbs = (o.z + 1).natAbs + 1 := by omega
      rw [e, iterL_succ_out, tyR_tyL]
    · rw [if_neg h1, if_pos h0]
      have e1 : (o.z + 1).toNat = 0 := by omega
      have e2 : o.z.natAbs = 1 := by omega
      rw [e1, e2]
      show F.ob o.name = tyR (tyL (F.ob o.name))
      rw [tyR_tyL]
  · rw [if_neg (by omega : ¬o.z + 1 < 0), if_neg h0]
    have e : (o.z + 1).toNat = o.z.toNat + 1 := by omega
    rw [e, iterR_succ_out]

theorem FTy_tyR (F : Functor) (t : Ty) : FTy F (tyR t) = tyR (FTy F t) := by
  induction t with
  | nil => rfl
  | cons a t ih =>
    rw [tyR_cons, FTy_append, ih]
    have h1 : FTy F (a :: t) = obImg F a ++ FTy F t := rfl
    rw [h1, tyR_append]
    have h2 : FTy F [a.r] = obImg F (Ob.r a) := by simp [FTy]
    rw [h2, obImg_r]

theorem FTy_length_tyR (F : Functor) (t : Ty) : (FTy F (tyR t)).length = (FTy F t).length := by
  rw [FTy_tyR, tyR_length]

theorem shiftL_nil (k : Nat) : shiftL k [] = [] := rfl

theorem shiftL_append (k : Nat) (a b : List Layer) :
    shiftL k (a ++ b) = shiftL k a ++ shiftL k b := by
  simp [shiftL]

theorem shiftL_shiftL (a b : Nat) (ls : List Layer) :
    shiftL a (shiftL b ls) = shiftL (b + a) ls := by
  simp [shiftL, Function.comp_def, Nat.add_assoc]

theorem stepsOkB_cons (t : Ty) (b : Box) (o : Nat) (ls : List Layer) (c : Ty)
    (h : stepsOkB t ((b, o) :: ls) c = true) :
    o + b.dom.length ≤ t.length ∧ (t.drop o).take b.dom.length = b.dom
      ∧ ValidBox b = true ∧ stepsOkB (spliceTy t o b) ls c = true := by
  simp only [stepsOkB, Bool.and_eq_true, decide_eq_true_eq] at h
  exact ⟨h.1.1.1, h.1.1.2, h.1.2, h.2⟩

theorem stepsOkB_nil (t c : Ty) (h : stepsOkB t [] c = true) : t = c := by
  simpa [stepsOkB] using h

theorem scanList_cons (t : Ty) (b : Box) (o : Nat) (ls : List Layer) :
    scanList t ((b, o) :: ls) = scanList (spliceTy t o b) ls := rfl

theorem scanList_of_ok : ∀ (ls : List Layer) (t c : Ty),
    stepsOkB t ls c = true → scanList t ls = c := by
  intro ls
  induction ls with
  | nil => intro t c h; exact stepsOkB_nil t c h
  | cons p ls ih =>
    intro t c h
    obtain ⟨b, o⟩ := p
    obtain ⟨_, _, _, hrest⟩ := stepsOkB_cons t b o ls c h
    rw [scanList_cons]
    exact ih _ c hrest

theorem spliceTy_append_right (scan ext : Ty) (o : Nat) (b : Box)
    (h : o + b.dom.length ≤ scan.length) :
    spliceTy (scan ++ ext) o b = spliceTy scan o b ++ ext := by
  unfold spliceTy
  rw [List.take_append_of_le_length (by omega), List.drop_append_of_le_length (by omega)]
  simp [List.append_assoc]

theorem scanList_append_right : ∀ (ls : List Layer) (t ext c : Ty),
    stepsOkB t ls c = true → scanList (t ++ ext) ls = c ++ ext := by
  intro ls
  induction ls with
  | nil =>
    intro t ext c h
    rw [stepsOkB_nil t c h]
    rfl
  | cons p ls ih =>
    intro t ext c h
    obtain ⟨b, o⟩ := p
    obtain ⟨hb, _, _, hrest⟩ := stepsOkB_cons t b o ls c h
    rw [scanList_cons, spliceTy_append_right t ext o b hb]
    exact ih _ ext c hrest

theorem Fgo_dom (F : Functor) : ∀ (ls : List Layer) (scan : Ty) (acc : Diagram),
    (Fgo F scan acc ls).dom = acc.dom := by
  intro ls
  induction ls with
  | nil => intro scan acc; rfl
  | cons p ls ih =>
    intro scan acc
    obtain ⟨b, o⟩ := p
    simp only [Fgo]
    rw [ih]
    rfl

theorem Fgo_acc (F : Functor) : ∀ (ls : List Layer) (scan : Ty) (acc : Diagram),
    Fgo F scan acc ls = compD acc (Fgo F scan (idD acc.cod) ls) := by
  intro ls
  induction ls with
  | nil =>
    intro scan acc
    show acc = compD acc (idD acc.cod)
    rw [compD_idR]
  | cons p ls ih =>
    intro scan acc
    obtain ⟨b, o⟩ := p
    simp only [Fgo]
    rw [ih (spliceTy scan o b)
      (compD acc (tensorD (tensorD (idD (FTy F (scan.take o))) (Fbox F b))
        (idD (FTy F (scan.drop (o + b.dom.length)))))),
      ih (spliceTy scan o b)
      (compD (idD acc.cod) (tensorD (tensorD (idD (FTy F (scan.take o))) (Fbox F b))
        (idD (FTy F (scan.drop (o + b.dom.length))))))]
    simp [compD, idD, List.append_assoc]

theorem Fgo_append (F : Functor) : ∀ (ls1 ls2 : List Layer) (scan : Ty) (acc : Diagram),
    Fgo F scan acc (ls1 ++ ls2) = Fgo F (scanList scan ls1) (Fgo F scan acc ls1) ls2 := by
  intro ls1
  induction ls1 with
  | nil => intro ls2 scan acc; rfl
  | cons p ls1 ih =>
    intro ls2 scan acc
    obtain ⟨b, o⟩ := p
    simp only [Fgo, List.cons_append, scanList_cons]
    exact ih ls2 (spliceTy scan o b) _

end Discopy

namespace Discopy

theorem foldl_dom_inv (f : Diagram → Nat → Diagram) (hf : ∀ r i, (f r i).dom = r.dom) :
    ∀ (xs : List Nat) (init : Diagram), (xs.foldl f init).dom = init.dom := by
  intro xs
  induction xs with
  | nil => intro init; rfl
  | cons x xs ih => intro init; rw [List.foldl_cons, ih, hf]

theorem foldl_cod_inv (f : Diagram → Nat → Diagram) (hf : ∀ r i, (f r i).cod = r.cod) :
    ∀ (xs : List Nat) (init : Diagram), (xs.foldl f init).cod = init.cod := by
  intro xs
  induction xs with
  | nil => intro init; rfl
  | cons x xs ih => intro init; rw [List.foldl_cons, ih, hf]

theorem cups0_dom (A B : Ty) : (cups0 A B).dom = A ++ B := by
  unfold cups0 nestedBuild
  rw [foldl_dom_inv]
  · rfl
  · intro r i
    simp [compD]

theorem caps0_cod (A B : Ty) : (caps0 A B).cod = A ++ B := by
  unfold caps0 nestedBuild
  rw [foldl_cod_inv]
  · rfl
  · intro r i
    simp [compD]

theorem cups0_cod (A B : Ty) (h : A.length = B.length) : (cups0 A B).cod = [] := by
  unfold cups0 nestedBuild
  cases hn : A.length with
  | zero =>
    have hA : A = [] := List.length_eq_zero.mp hn
    have hB : B = [] := List.length_eq_zero.mp (by omega)
    subst hA
    subst hB
    rfl
  | succ m =>
    simp only [hn, List.range_succ, List.foldl_append, List.foldl_cons, List.foldl_nil]
    have e : m + 1 - m - 1 = 0 := by omega
    have hB : B.drop (m + 1) = [] := List.drop_eq_nil_of_le (by omega)
    simp [compD, tensorD, idD, boxD, Box.cod, e, hB]

theorem caps0_dom (A B : Ty) (h : A.length = B.length) : (caps0 A B).dom = [] := by
  unfold caps0 nestedBuild
  cases hn : A.length with
  | zero =>
    have hA : A = [] := List.length_eq_zero.mp hn
    have hB : B = [] := List.length_eq_zero.mp (by omega)
    subst hA
    subst hB
    rfl
  | succ m =>
    simp only [hn, List.range_succ, List.foldl_append, List.foldl_cons, List.foldl_nil]
    have e : m + 1 - m - 1 = 0 := by omega
    have hB : B.drop (m + 1) = [] := List.drop_eq_nil_of_le (by omega)
    simp [compD, tensorD, idD, boxD, Box.dom, e, hB]

theorem take_one_of_len_one (l r : Ty) (h : l.length = 1) : (l ++ r).take 1 = l := by
  cases l with
  | nil => cases h
  | cons a l' =>
    cases l' with
    | nil => rfl
    | cons b l'' => simp at h

theorem drop_one_of_len_one (l r : Ty) (h : l.length = 1) : (l ++ r).drop 1 = r := by
  cases l with
  | nil => cases h
  | cons a l' =>
    cases l' with
    | nil => rfl
    | cons b l'' => simp at h

theorem ValidBox_cup (l r : Ty) (h : ValidBox (.cup l r) = true) :
    l.length = 1 ∧ r.length = 1 ∧ tyR l = r ∧ l ≠ tyR r := by
  simpa [ValidBox] using h

theorem ValidBox_cap (l r : Ty) (h : ValidBox (.cap l r) = true) :
    l.length = 1 ∧ r.length = 1 ∧ l = tyR r ∧ tyR l ≠ r := by
  simpa [ValidBox] using h

theorem Fbox_dom (F : Functor) (hF : ArOk F) (b : Box) (hb : ValidBox b = true) :
    (Fbox F b).dom = FTy F (Box.dom b) := by
  cases b with
  | gen name dom cod dg => exact (hF name dom cod dg).1
  | cup l r =>
    obtain ⟨h1, h2, h3, _⟩ := ValidBox_cup l r hb
    show (cups0 (FTy F ((l ++ r).take 1)) (FTy F ((l ++ r).drop 1))).dom = FTy F (l ++ r)
    rw [take_one_of_len_one l r h1, drop_one_of_len_one l r h1, cups0_dom, FTy_append]
  | cap l r =>
    obtain ⟨h1, h2, h3, _⟩ := ValidBox_cap l r hb
    show (caps0 (FTy F ((l ++ r).take 1)) (FTy F ((l ++ r).drop 1))).dom = FTy F []
    rw [take_one_of_len_one l r h1, drop_one_of_len_one l r h1]
    rw [caps0_dom]
    · rfl
    · rw [h3, FTy_tyR, tyR_length]

theorem Fbox_cod (F : Functor) (hF : ArOk F) (b : Box) (hb : ValidBox b = true) :
    (Fbox F b).cod = FTy F (Box.cod b) := by
  cases b with
  | gen name dom cod dg => exact (hF name dom cod dg).2
  | cup l r =>
    obtain ⟨h1, h2, h3, _⟩ := ValidBox_cup l r hb
    show (cups0 (FTy F ((l ++ r).take 1)) (FTy F ((l ++ r).drop 1))).cod = FTy F []
    rw [take_one_of_len_one l r h1, drop_one_of_len_one l r h1]
    rw [cups0_cod]
    · rfl
    · rw [← h3, FTy_tyR, tyR_length]
  | cap l r =>
    obtain ⟨h1, h2, h3, _⟩ := ValidBox_cap l r hb
    show (caps0 (FTy F ((l ++ r).take 1)) (FTy F ((l ++ r).drop 1))).cod = FTy F (l ++ r)
    rw [take_one_of_len_one l r h1, drop_one_of_len_one l r h1, caps0_cod, FTy_append]

theorem stepW_cod (F : Functor) (hF : ArOk F) (scan : Ty) (b : Box) (o : Nat)
    (hvb : ValidBox b = true) :
    (tensorD (tensorD (idD (FTy F (scan.take o))) (Fbox F b))
      (idD (FTy F (scan.drop (o + b.dom.length))))).cod = FTy F (spliceTy scan o b) := by
  show (FTy F (scan.take o) ++ (Fbox F b).cod) ++ FTy F (scan.drop (o + b.dom.length)) = _
  rw [Fbox_cod F hF b hvb]
  unfold spliceTy
  rw [FTy_append, FTy_append]

theorem Fgo_cod (F : Functor) (hF : ArOk F) : ∀ (ls : List Layer) (scan c : Ty) (acc : Diagram),
    stepsOkB scan ls c = true → acc.cod = FTy F scan → (Fgo F scan acc ls).cod = FTy F c := by
  intro ls
  induction ls with
  | nil =>
    intro scan c acc hok hacc
    rw [show Fgo F scan acc [] = acc from rfl, hacc, stepsOkB_nil scan c hok]
  | cons p ls ih =>
    intro scan c acc hok hacc
    obtain ⟨b, o⟩ := p
    obtain ⟨hb, hsl, hvb, hrest⟩ := stepsOkB_cons scan b o ls c hok
    simp only [Fgo]
    apply ih (spliceTy scan o b) c _ hrest
    exact stepW_cod F hF scan b o hvb

theorem Fdiag_dom (F : Functor) (d : Diagram) : (Fdiag F d).dom = FTy F d.dom := by
  unfold Fdiag
  rw [Fgo_dom]
  rfl

theorem Fdiag_cod (F : Functor) (hF : ArOk F) (d : Diagram) (hd : Valid d) :
    (Fdiag F d).cod = FTy F d.cod := by
  unfold Fdiag
  exact Fgo_cod F hF d.layers d.dom d.cod _ hd rfl

theorem Fdiag_comp (F : Functor) (hF : ArOk F) (d1 d2 : Diagram)
    (h1 : Valid d1) (hc : d1.cod = d2.dom) :
    Fdiag F (compD d1 d2) = compD (Fdiag F d1) (Fdiag F d2) := by
  show Fgo F d1.dom (idD (FTy F d1.dom)) (d1.layers ++ d2.layers) = _
  rw [Fgo_append, scanList_of_ok d1.layers d1.dom d1.cod h1, hc]
  rw [show Fgo F d1.dom (idD (FTy F d1.dom)) d1.layers = Fdiag F d1 from rfl]
  rw [Fgo_acc F d2.layers d2.dom (Fdiag F d1)]
  rw [Fdiag_cod F hF d1 h1, hc]
  rfl

end Discopy

namespace Discopy

theorem Fgo_extR (F : Functor) (hF : ArOk F) : ∀ (ls : List Layer) (scan ext c : Ty),
    stepsOkB scan ls c = true →
    Fgo F (scan ++ ext) (idD (FTy F (scan ++ ext))) ls
      = tensorD (Fgo F scan (idD (FTy F scan)) ls) (idD (FTy F ext)) := by
  intro ls
  induction ls with
  | nil =>
    intro scan ext c _
    simp [Fgo, tensorD, idD, FTy_append, shiftL]
  | cons p ls ih =>
    intro scan ext c hok
    obtain ⟨b, o⟩ := p
    obtain ⟨hb, hsl, hvb, hrest⟩ := stepsOkB_cons scan b o ls c hok
    have hTake : (scan ++ ext).take o = scan.take o :=
      List.take_append_of_le_length (by omega)
    have hDrop : (scan ++ ext).drop (o + b.dom.length)
        = scan.drop (o + b.dom.length) ++ ext :=
      List.drop_append_of_le_length (by omega)
    have hSplice : spliceTy (scan ++ ext) o b = spliceTy scan o b ++ ext :=
      spliceTy_append_right scan ext o b hb
    simp only [Fgo]
    rw [hTake, hDrop, hSplice]
    have hWcod : (tensorD (tensorD (idD (FTy F (scan.take o))) (Fbox F b))
        (idD (FTy F (scan.drop (o + b.dom.length) ++ ext)))).cod
        = FTy F (spliceTy scan o b ++ ext) := by
      show (FTy F (scan.take o) ++ (Fbox F b).cod)
          ++ FTy F (scan.drop (o + b.dom.length) ++ ext) = _
      rw [Fbox_cod F hF b hvb]
      unfold spliceTy
      simp [FTy_append, List.append_assoc]
    rw [Fgo_acc F ls (spliceTy scan o b ++ ext), Fgo_acc F ls (spliceTy scan o b)]
    rw [show (compD (idD (FTy F (scan ++ ext)))
        (tensorD (tensorD (idD (FTy F (scan.take o))) (Fbox F b))
          (idD (FTy F (scan.drop (o + b.dom.length) ++ ext))))).cod
        = FTy F (spliceTy scan o b ++ ext) from hWcod]
    rw [show (compD (idD (FTy F scan))
        (tensorD (tensorD (idD (FTy F (scan.take o))) (Fbox F b))
          (idD (FTy F (scan.drop (o + b.dom.length)))))).cod
        = FTy F (spliceTy scan o b) from stepW_cod F hF scan b o hvb]
    rw [ih (spliceTy scan o b) ext c hrest]
    simp [compD, tensorD, idD, shiftL, FTy_append, List.append_assoc]

end Discopy

namespace Discopy

theorem spliceTy_append_left (pre scan : Ty) (o : Nat) (b : Box) :
    spliceTy (pre ++ scan) (o + pre.length) b = pre ++ spliceTy scan o b := by
  unfold spliceTy
  rw [Nat.add_comm o pre.length, List.take_append]
  rw [show pre.length + o + b.dom.length = pre.length + (o + b.dom.length) by omega,
    List.drop_append]
  simp [List.append_assoc]

theorem shiftL_cons (k : Nat) (b : Box) (o : Nat) (ls : List Layer) :
    shiftL k ((b, o) :: ls) = (b, o + k) :: shiftL k ls := rfl

theorem Fgo_extL (F : Functor) (hF : ArOk F) : ∀ (ls : List Layer) (pre scan c : Ty),
    stepsOkB scan ls c = true →
    Fgo F (pre ++ scan) (idD (FTy F (pre ++ scan))) (shiftL pre.length ls)
      = tensorD (idD (FTy F pre)) (Fgo F scan (idD (FTy F scan)) ls) := by
  intro ls
  induction ls with
  | nil =>
    intro pre scan c _
    simp [Fgo, tensorD, idD, FTy_append, shiftL]
  | cons p ls ih =>
    intro pre scan c hok
    obtain ⟨b, o⟩ := p
    obtain ⟨hb, hsl, hvb, hrest⟩ := stepsOkB_cons scan b o ls c hok
    rw [shiftL_cons]
    simp only [Fgo]
    have hTake : (pre ++ scan).take (o + pre.length) = pre ++ scan.take o := by
      rw [Nat.add_comm o pre.length, List.take_append]
    have hDrop : (pre ++ scan).drop (o + pre.length + b.dom.length)
        = scan.drop (o + b.dom.length) := by
      rw [show o + pre.length + b.dom.length = pre.length + (o + b.dom.length) by omega,
        List.drop_append]
    have hSplice := spliceTy_append_left pre scan o b
    rw [hTake, hDrop, hSplice]
    have hWcod : (tensorD (tensorD (idD (FTy F (pre ++ scan.take o))) (Fbox F b))
        (idD (FTy F (scan.drop (o + b.dom.length))))).cod
        = FTy F (pre ++ spliceTy scan o b) := by
      show (FTy F (pre ++ scan.take o) ++ (Fbox F b).cod)
          ++ FTy F (scan.drop (o + b.dom.length)) = _
      rw [Fbox_cod F hF b hvb]
      unfold spliceTy
      simp [FTy_append, List.append_assoc]
    rw [Fgo_acc F (shiftL pre.length ls) (pre ++ spliceTy scan o b),
      Fgo_acc F ls (spliceTy scan o b)]
    rw [show (compD (idD (FTy F (pre ++ scan)))
        (tensorD (tensorD (idD (FTy F (pre ++ scan.take o))) (Fbox F b))
          (idD (FTy F (scan.drop (o + b.dom.length)))))).cod
        = FTy F (pre ++ spliceTy scan o b) from hWcod]
    rw [show (compD (idD (FTy F scan))
        (tensorD (tensorD (idD (FTy F (scan.take o))) (Fbox F b))
          (idD (FTy F (scan.drop (o + b.dom.length)))))).cod
        = FTy F (spliceTy scan o b) from stepW_cod F hF scan b o hvb]
    rw [ih pre (spliceTy scan o b) c hrest]
    have hlayers : shiftL (FTy F (pre ++ scan.take o)).length (Fbox F b).layers
        = shiftL (FTy F pre).length (shiftL (FTy F (scan.take o)).length (Fbox F b).layers) := by
      rw [shiftL_shiftL, FTy_append, List.length_append, Nat.add_comm]
    simp only [compD, tensorD, idD, shiftL_append, shiftL_nil, List.append_nil,
      List.nil_append, FTy_append, List.append_assoc]
    rw [show shiftL (FTy F pre ++ FTy F (scan.take o)).length (Fbox F b).layers
        = shiftL (FTy F pre).length (shiftL (FTy F (scan.take o)).length (Fbox F b).layers) by
      rw [← FTy_append]; exact hlayers]

end Discopy

namespace Discopy

theorem Fdiag_tensor (F : Functor) (hF : ArOk F) (d1 d2 : Diagram)
    (h1 : Valid d1) (h2 : Valid d2) :
    Fdiag F (tensorD d1 d2) = tensorD (Fdiag F d1) (Fdiag F d2) := by
  show Fgo F (d1.dom ++ d2.dom) (idD (FTy F (d1.dom ++ d2.dom)))
      (d1.layers ++ shiftL d1.cod.length d2.layers) = _
  rw [Fgo_append]
  rw [scanList_append_right d1.layers d1.dom d2.dom d1.cod h1]
  rw [Fgo_extR F hF d1.layers d1.dom d2.dom d1.cod h1]
  rw [Fgo_acc F (shiftL d1.cod.length d2.layers) (d1.cod ++ d2.dom)]
  have hcod : (tensorD (Fgo F d1.dom (idD (FTy F d1.dom)) d1.layers)
      (idD (FTy F d2.dom))).cod = FTy F (d1.cod ++ d2.dom) := by
    show (Fgo F d1.dom (idD (FTy F d1.dom)) d1.layers).cod ++ FTy F d2.dom = _
    rw [show Fgo F d1.dom (idD (FTy F d1.dom)) d1.layers = Fdiag F d1 from rfl,
      Fdiag_cod F hF d1 h1, FTy_append]
  rw [show (tensorD (Fgo F d1.dom (idD (FTy F d1.dom)) d1.layers)
      (idD (FTy F d2.dom))).cod = FTy F (d1.cod ++ d2.dom) from hcod]
  rw [Fgo_extL F hF d2.layers d1.cod d2.dom d2.cod h2]
  have hc1 : (Fgo F d1.dom (idD (FTy F d1.dom)) d1.layers).cod = FTy F d1.cod :=
    Fdiag_cod F hF d1 h1
  have hd2 : (Fgo F d2.dom (idD (FTy F d2.dom)) d2.layers).dom = FTy F d2.dom := by
    rw [Fgo_dom]
    rfl
  show compD (tensorD (Fgo F d1.dom (idD (FTy F d1.dom)) d1.layers) (idD (FTy F d2.dom)))
      (tensorD (idD (FTy F d1.cod)) (Fgo F d2.dom (idD (FTy F d2.dom)) d2.layers))
      = tensorD (Fgo F d1.dom (idD (FTy F d1.dom)) d1.layers)
        (Fgo F d2.dom (idD (FTy F d2.dom)) d2.layers)
  simp only [idD] at hc1 hd2
  simp [compD, tensorD, idD, shiftL_nil, List.append_nil, hc1, hd2]

/-- C2: for composable valid diagrams (and for any two valid diagrams
in the tensor case), a rigid functor with well-typed images for all
plain generators preserves sequential and parallel composition, also
when the diagrams contain cups and caps, whose images are built by the
target cups/caps builders. -/
theorem c2_functor_hom (F : Functor) (hF : ArOk F) (d1 d2 : Diagram)
    (h1 : Valid d1) (h2 : Valid d2) :
    (d1.cod = d2.dom →
      Fdiag F (compD d1 d2) = compD (Fdiag F d1) (Fdiag F d2)
        ∧ thenD (Fdiag F d1) (Fdiag F d2) = some (Fdiag F (compD d1 d2)))
      ∧ Fdiag F (tensorD d1 d2) = tensorD (Fdiag F d1) (Fdiag F d2) := by
  constructor
  · intro hc
    have hcomp := Fdiag_comp F hF d1 d2 h1 hc
    refine ⟨hcomp, ?_⟩
    unfold thenD
    rw [if_pos, hcomp]
    rw [Fdiag_cod F hF d1 h1, Fdiag_dom, hc]
  · exact Fdiag_tensor F hF d1 d2 h1 h2

/-- Witness for C2: the snake diagram `Id(n) @ Cap(n.r, n)
>> Cup(n, n.r) @ Id(n)` composed and tensored with itself, under the
functor sending every generator to itself. -/
theorem c2_functor_hom_w :
    ((Diagram.mk [Ob.mk "n" 0] [Ob.mk "n" 0]
        [(Box.cap [Ob.mk "n" 1] [Ob.mk "n" 0], 1), (Box.cup [Ob.mk "n" 0] [Ob.mk "n" 1], 0)]).cod
      = (Diagram.mk [Ob.mk "n" 0] [Ob.mk "n" 0]
        [(Box.cap [Ob.mk "n" 1] [Ob.mk "n" 0], 1), (Box.cup [Ob.mk "n" 0] [Ob.mk "n" 1], 0)]).dom →
      Fdiag wF (compD
          (Diagram.mk [Ob.mk "n" 0] [Ob.mk "n" 0]
            [(Box.cap [Ob.mk "n" 1] [Ob.mk "n" 0], 1), (Box.cup [Ob.mk "n" 0] [Ob.mk "n" 1], 0)])
          (Diagram.mk [Ob.mk "n" 0] [Ob.mk "n" 0]
            [(Box.cap [Ob.mk "n" 1] [Ob.mk "n" 0], 1), (Box.cup [Ob.mk "n" 0] [Ob.mk "n" 1], 0)]))
        = compD
          (Fdiag wF (Diagram.mk [Ob.mk "n" 0] [Ob.mk "n" 0]
            [(Box.cap [Ob.mk "n" 1] [Ob.mk "n" 0], 1), (Box.cup [Ob.mk "n" 0] [Ob.mk "n" 1], 0)]))
          (Fdiag wF (Diagram.mk [Ob.mk "n" 0] [Ob.mk "n" 0]
            [(Box.cap [Ob.mk "n" 1] [Ob.mk "n" 0], 1), (Box.cup [Ob.mk "n" 0] [Ob.mk "n" 1], 0)]))
        ∧ thenD
          (Fdiag wF (Diagram.mk [Ob.mk "n" 0] [Ob.mk "n" 0]
            [(Box.cap [Ob.mk "n" 1] [Ob.mk "n" 0], 1), (Box.cup [Ob.mk "n" 0] [Ob.mk "n" 1], 0)]))
          (Fdiag wF (Diagram.mk [Ob.mk "n" 0] [Ob.mk "n" 0]
            [(Box.cap [Ob.mk "n" 1] [Ob.mk "n" 0], 1), (Box.cup [Ob.mk "n" 0] [Ob.mk "n" 1], 0)]))
        = some (Fdiag wF (compD
          (Diagram.mk [Ob.mk "n" 0] [Ob.mk "n" 0]
            [(Box.cap [Ob.mk "n" 1] [Ob.mk "n" 0], 1), (Box.cup [Ob.mk "n" 0] [Ob.mk "n" 1], 0)])
          (Diagram.mk [Ob.mk "n" 0] [Ob.mk "n" 0]
            [(Box.cap [Ob.mk "n" 1] [Ob.mk "n" 0], 1), (Box.cup [Ob.mk "n" 0] [Ob.mk "n" 1], 0)]))))
      ∧ Fdiag wF (tensorD
          (Diagram.mk [Ob.mk "n" 0] [Ob.mk "n" 0]
            [(Box.cap [Ob.mk "n" 1] [Ob.mk "n" 0], 1), (Box.cup [Ob.mk "n" 0] [Ob.mk "n" 1], 0)])
          (Diagram.mk [Ob.mk "n" 0] [Ob.mk "n" 0]
            [(Box.cap [Ob.mk "n" 1] [Ob.mk "n" 0], 1), (Box.cup [Ob.mk "n" 0] [Ob.mk "n" 1], 0)]))
        = tensorD
          (Fdiag wF (Diagram.mk [Ob.mk "n" 0] [Ob.mk "n" 0]
            [(Box.cap [Ob.mk "n" 1] [Ob.mk "n" 0], 1), (Box.cup [Ob.mk "n" 0] [Ob.mk "n" 1], 0)]))
          (Fdiag wF (Diagram.mk [Ob.mk "n" 0] [Ob.mk "n" 0]
            [(Box.cap [Ob.mk "n" 1] [Ob.mk "n" 0], 1), (Box.cup [Ob.mk "n" 0] [Ob.mk "n" 1], 0)])) :=
  c2_functor_hom wF (fun name dom cod dg => ⟨rfl, rfl⟩)
    (Diagram.mk [Ob.mk "n" 0] [Ob.mk "n" 0]
      [(Box.cap [Ob.mk "n" 1] [Ob.mk "n" 0], 1), (Box.cup [Ob.mk "n" 0] [Ob.mk "n" 1], 0)])
    (Diagram.mk [Ob.mk "n" 0] [Ob.mk "n" 0]
      [(Box.cap [Ob.mk "n" 1] [Ob.mk "n" 0], 1), (Box.cup [Ob.mk "n" 0] [Ob.mk "n" 1], 0)])
    (by decide) (by decide)

end Discopy

namespace Discopy

/-- A one-atom slice of a right dual is the dual of the slice of the
reversal. -/
theorem tyR_drop_take (t : Ty) (p : Nat) :
    ((tyR t).drop p).take 1 = obsR ((t.reverse.drop p).take 1) := by
  simp only [tyR, obsR]
  rw [← List.map_drop, ← List.map_take]

/-- A one-atom slice of a list equals the mirrored slice of its
reversal. -/
theorem rev_slice (t : Ty) (p : Nat) (h : p < t.length) :
    (t.reverse.drop p).take 1 = (t.drop (t.length - p - 1)).take 1 := by
  have h1 : p < t.reverse.length := by simpa using h
  have h2 : t.length - p - 1 < t.length := by omega
  rw [drop_take_one _ p h1, drop_take_one _ _ h2]
  congr 1
  rw [List.getElem_reverse]
  simp only [show t.length - 1 - p = t.length - p - 1 from by omega]

/-- Closed form of the layer list built by the forward nested loop:
iteration `i` contributes the factory generator on the mirrored slices
at offset `l.length - i - 1`. -/
theorem nb_layers_false (fac : Ty → Ty → Box) (l r : Ty) : ∀ k,
    ((List.range k).foldl
      (fun result i =>
        let j := l.length - i - 1
        let b := fac ((l.drop j).take 1) ((r.drop i).take 1)
        let layer := tensorD (tensorD (idD (l.take j)) (boxD b)) (idD (r.drop (i + 1)))
        compD result layer)
      (idD (l ++ r))).layers
    = (List.range k).map (fun i =>
        (fac ((l.drop (l.length - i - 1)).take 1) ((r.drop i).take 1), l.length - i - 1)) := by
  intro k
  induction k with
  | zero => rfl
  | succ k ih =>
    rw [List.range_succ, List.foldl_append, List.map_append]
    rw [List.foldl_cons, List.foldl_nil]
    show (compD _ (tensorD (tensorD (idD (l.take (l.length - k - 1)))
        (boxD (fac ((l.drop (l.length - k - 1)).take 1) ((r.drop k).take 1))))
        (idD (r.drop (k + 1))))).layers = _
    have hc : ∀ a b : Diagram, (compD a b).layers = a.layers ++ b.layers := fun _ _ => rfl
    rw [hc, ih]
    have hj : (l.take (l.length - k - 1)).length = l.length - k - 1 := by
      rw [List.length_take]; omega
    simp [tensorD, boxD, idD, shiftL, hj]

/-- Closed form of the layer list built by the reversed nested loop: the
reverse of the forward one. -/
theorem nb_layers_true (fac : Ty → Ty → Box) (l r : Ty) : ∀ k,
    ((List.range k).foldl
      (fun result i =>
        let j := l.length - i - 1
        let b := fac ((l.drop j).take 1) ((r.drop i).take 1)
        let layer := tensorD (tensorD (idD (l.take j)) (boxD b)) (idD (r.drop (i + 1)))
        compD layer result)
      (idD (l ++ r))).layers
    = ((List.range k).map (fun i =>
        (fac ((l.drop (l.length - i - 1)).take 1) ((r.drop i).take 1), l.length - i - 1))).reverse := by
  intro k
  induction k with
  | zero => rfl
  | succ k ih =>
    rw [List.range_succ, List.foldl_append, List.map_append]
    rw [List.foldl_cons, List.foldl_nil]
    show (compD (tensorD (tensorD (idD (l.take (l.length - k - 1)))
        (boxD (fac ((l.drop (l.length - k - 1)).take 1) ((r.drop k).take 1))))
        (idD (r.drop (k + 1)))) _).layers = _
    have hc : ∀ a b : Diagram, (compD a b).layers = a.layers ++ b.layers := fun _ _ => rfl
    rw [hc, ih]
    have hj : (l.take (l.length - k - 1)).length = l.length - k - 1 := by
      rw [List.length_take]; omega
    simp [tensorD, boxD, idD, shiftL, hj]

/-- The layers of the unchecked `caps(t.r, t)` are exactly the cap
family over the reversal of `t`. -/
theorem caps0_fam (t : Ty) : (caps0 (tyR t) t).layers = famCaps 0 t.reverse := by
  have h := nb_layers_true Box.cap (tyR t) t (tyR t).length
  have hbase : caps0 (tyR t) t = nestedBuild Box.cap true (tyR t) t := rfl
  rw [hbase]
  unfold nestedBuild
  rw [show ((fun (result : Diagram) (i : Nat) =>
        let j := (tyR t).length - i - 1
        let b := Box.cap (((tyR t).drop j).take 1) ((t.drop i).take 1)
        let layer := tensorD (tensorD (idD ((tyR t).take j)) (boxD b)) (idD (t.drop (i + 1)))
        if true then compD layer result else compD result layer))
      = (fun (result : Diagram) (i : Nat) =>
        let j := (tyR t).length - i - 1
        let b := Box.cap (((tyR t).drop j).take 1) ((t.drop i).take 1)
        let layer := tensorD (tensorD (idD ((tyR t).take j)) (boxD b)) (idD (t.drop (i + 1)))
        compD layer result) from rfl]
  rw [h]
  apply List.ext_getElem
  · simp [famCaps, tyR_length]
  · intro p h1 h2
    have hp : p < t.length := by
      simpa [famCaps] using h2
    rw [List.getElem_reverse]
    rw [List.getElem_map, List.getElem_range]
    simp only [famCaps, List.getElem_map, List.getElem_range]
    simp only [List.length_map, List.length_range, tyR_length]
    have e1 : t.length - (t.length - 1 - p) - 1 = p := by omega
    simp only [e1]
    have e2 : (t.reverse.drop p).take 1 = (t.drop (t.length - p - 1)).take 1 :=
      rev_slice t p hp
    rw [tyR_drop_take, e2]
    have e3 : t.length - 1 - p = t.length - p - 1 := by omega
    rw [e3]
    simp [List.length_reverse]

/-- The shifted layers of the unchecked `cups(t, t.r)` are exactly the
cup family over the reversal of `t`. -/
theorem cups0_fam (t : Ty) :
    shiftL t.length (cups0 t (tyR t)).layers = famCups 0 t.reverse := by
  have h := nb_layers_false Box.cup t (tyR t) t.length
  have hbase : cups0 t (tyR t) = nestedBuild Box.cup false t (tyR t) := rfl
  rw [hbase]
  unfold nestedBuild
  rw [show ((fun (result : Diagram) (i : Nat) =>
        let j := t.length - i - 1
        let b := Box.cup ((t.drop j).take 1) (((tyR t).drop i).take 1)
        let layer := tensorD (tensorD (idD (t.take j)) (boxD b)) (idD ((tyR t).drop (i + 1)))
        if false then compD layer result else compD result layer))
      = (fun (result : Diagram) (i : Nat) =>
        let j := t.length - i - 1
        let b := Box.cup ((t.drop j).take 1) (((tyR t).drop i).take 1)
        let layer := tensorD (tensorD (idD (t.take j)) (boxD b)) (idD ((tyR t).drop (i + 1)))
        compD result layer) from rfl]
  rw [h]
  apply List.ext_getElem
  · simp [famCups, shiftL]
  · intro p h1 h2
    have hp : p < t.length := by
      simpa [shiftL] using h1
    simp only [shiftL, famCups, List.getElem_map, List.getElem_range]
    have e2 : (t.drop (t.length - p - 1)).take 1 = (t.reverse.drop p).take 1 :=
      (rev_slice t p hp).symm
    rw [e2, tyR_drop_take]
    simp only [List.length_reverse]
    congr 1
    omega

end Discopy

namespace Discopy

/-- Two diagrams with equal components are equal. -/
theorem diagram_ext (X Y : Diagram) (h1 : X.dom = Y.dom) (h2 : X.cod = Y.cod)
    (h3 : X.layers = Y.layers) : X = Y := by
  cases X; cases Y; simp_all

theorem famCaps_length (s : Nat) (zs : List Ob) : (famCaps s zs).length = zs.length := by
  simp [famCaps]

theorem famCups_length (s : Nat) (zs : List Ob) : (famCups s zs).length = zs.length := by
  simp [famCups]

theorem famLayers_length (s : Nat) (zs : List Ob) :
    (famLayers s zs).length = 2 * zs.length := by
  simp only [famLayers, List.length_append, famCaps_length, famCups_length]
  omega

/-- The transpose of an identity diagram evaluates to the cap/cup family
over the reversed type, with boundary `t.r` on both sides. -/
theorem transposeD_idD (t : Ty) :
    transposeD (idD t) = some ⟨tyR t, tyR t, famLayers 0 t.reverse⟩ := by
  unfold transposeD
  simp only [show (idD t).dom = t from rfl, show (idD t).cod = t from rfl]
  rw [caps_ok t, cups_ok t]
  simp only [Except.toOption, Option.bind_eq_bind, Option.some_bind]
  have hab : thenD (tensorD (caps0 (tyR t) t) (idD (tyR t)))
      (tensorD (tensorD (idD (tyR t)) (idD t)) (idD (tyR t)))
      = some (compD (tensorD (caps0 (tyR t) t) (idD (tyR t)))
          (tensorD (tensorD (idD (tyR t)) (idD t)) (idD (tyR t)))) := by
    unfold thenD
    rw [if_pos]
    show (caps0 (tyR t) t).cod ++ tyR t = (tyR t ++ t) ++ tyR t
    rw [caps0_cod]
  rw [hab]
  simp only [Option.some_bind]
  have hac : thenD (compD (tensorD (caps0 (tyR t) t) (idD (tyR t)))
        (tensorD (tensorD (idD (tyR t)) (idD t)) (idD (tyR t))))
      (tensorD (idD (tyR t)) (cups0 t (tyR t)))
      = some (compD (compD (tensorD (caps0 (tyR t) t) (idD (tyR t)))
          (tensorD (tensorD (idD (tyR t)) (idD t)) (idD (tyR t))))
          (tensorD (idD (tyR t)) (cups0 t (tyR t)))) := by
    unfold thenD
    rw [if_pos]
    show (tyR t ++ t) ++ tyR t = tyR t ++ (cups0 t (tyR t)).dom
    rw [cups0_dom, List.append_assoc]
  rw [hac]
  congr 1
  apply diagram_ext
  · show (caps0 (tyR t) t).dom ++ tyR t = tyR t
    rw [caps0_dom _ _ (tyR_length t)]
    rfl
  · show tyR t ++ (cups0 t (tyR t)).cod = tyR t
    rw [cups0_cod _ _ (tyR_length t).symm]
    exact List.append_nil _
  · show ((caps0 (tyR t) t).layers ++ shiftL (caps0 (tyR t) t).cod.length [])
        ++ (([] ++ shiftL (tyR t).length []) ++ shiftL ((tyR t ++ t)).length [])
        ++ ([] ++ shiftL (tyR t).length (cups0 t (tyR t)).layers)
      = famLayers 0 t.reverse
    simp only [shiftL_nil, List.append_nil, List.nil_append]
    rw [caps0_fam, tyR_length, cups0_fam]
    rfl

end Discopy

namespace Discopy

theorem slice_len_one (zs : List Ob) (p : Nat) (h : p < zs.length) :
    ((zs.drop p).take 1).length = 1 := by
  rw [List.length_take, List.length_drop]
  omega

/-- Head/tail decomposition of the cap family over a cons. -/
theorem famCaps_cons (s : Nat) (z : Ob) (zs : List Ob) :
    famCaps s (z :: zs) = (Box.cap (obsR [z]) [z], s) :: famCaps (s + 1) zs := by
  simp only [famCaps, List.length_cons, List.range_succ_eq_map, List.map_cons, List.map_map]
  congr 1
  apply List.map_congr_left
  intro p hp
  have hp' : p < zs.length := List.mem_range.mp hp
  simp only [Function.comp, List.drop_succ_cons, Prod.mk.injEq]
  exact ⟨trivial, by omega⟩

/-- Head/tail decomposition of the cup family over a cons. -/
theorem famCups_cons (s : Nat) (z : Ob) (zs : List Ob) :
    famCups s (z :: zs)
      = (Box.cup [z] (obsR [z]), s + (2 * zs.length + 1)) :: famCups (s + 1) zs := by
  simp only [famCups, List.length_cons, List.range_succ_eq_map, List.map_cons, List.map_map]
  congr 1
  apply List.map_congr_left
  intro p hp
  have hp' : p < zs.length := List.mem_range.mp hp
  simp only [Function.comp, List.drop_succ_cons, Prod.mk.injEq]
  exact ⟨trivial, by omega⟩

/-- When the wire lies strictly left of every remaining layer, the walk
exits past all of them, collecting them as right obstructions. -/
theorem fwGo_allRight : ∀ (ls : List Layer) (i : Nat) (j : Int),
    (∀ p ∈ ls, j < (p.2 : Int)) →
    fwGo ls i j = (i + ls.length, j, [], List.range' i ls.length) := by
  intro ls
  induction ls with
  | nil => intro i j _; simp [fwGo]
  | cons hd tl ih =>
    intro i j h
    obtain ⟨b, off⟩ := hd
    have hoff : j < (off : Int) := h (b, off) (by simp)
    have h1 : ¬((off : Int) ≤ j ∧ j < (off : Int) + b.dom.length) := by
      intro hh
      omega
    have h2 : ¬((off : Int) ≤ j) := by omega
    simp only [fwGo, if_neg h1, if_neg h2]
    rw [ih (i + 1) j (fun p hp => h p (List.mem_cons_of_mem _ hp))]
    simp only [List.length_cons, List.range'_succ]
    rw [show i + 1 + tl.length = i + (tl.length + 1) from by omega]

/-- The wire of the right-snake candidate walks down the remaining cap
layers, collecting them as left obstructions, and stops at the first cup
layer. -/
theorem fwGo_family (s : Nat) (zs : List Ob) : ∀ q, q < zs.length →
    fwGo ((famCaps s zs).drop (zs.length - q) ++ famCups s zs) (zs.length - q)
      ((s : Int) + 2 * ((zs.length - q : Nat) : Int) - 1)
      = (zs.length, (s : Int) + 2 * (zs.length : Int) - 1,
          List.range' (zs.length - q) q, []) := by
  intro q
  induction q with
  | zero =>
    intro hq
    have hde : (famCaps s zs).drop zs.length = [] := by
      rw [show zs.length = (famCaps s zs).length from (famCaps_length s zs).symm]
      exact List.drop_length _
    rw [Nat.sub_zero, hde, List.nil_append]
    obtain ⟨z, zs', rfl⟩ : ∃ z zs', zs = z :: zs' := by
      cases zs with
      | nil => simp at hq
      | cons a b => exact ⟨a, b, rfl⟩
    rw [famCups_cons]
    have hcond : ((s + (2 * zs'.length + 1) : Nat) : Int)
          ≤ (s : Int) + 2 * (((z :: zs').length : Nat) : Int) - 1
        ∧ (s : Int) + 2 * (((z :: zs').length : Nat) : Int) - 1
          < ((s + (2 * zs'.length + 1) : Nat) : Int)
            + ((Box.cup [z] (obsR [z])).dom.length : Int) := by
      have hd : (Box.cup [z] (obsR [z])).dom.length = 2 := by
        simp [Box.dom, obsR]
      rw [hd]
      simp only [List.length_cons]
      omega
    simp only [fwGo, if_pos hcond]
    rfl
  | succ q ih =>
    intro hq
    have hq' : q < zs.length := by omega
    have hk : zs.length - (q + 1) < (famCaps s zs).length := by
      rw [famCaps_length]
      omega
    have hkz : zs.length - (q + 1) < zs.length := by omega
    have hdrop : (famCaps s zs).drop (zs.length - (q + 1))
        = (famCaps s zs)[zs.length - (q + 1)]
          :: (famCaps s zs).drop (zs.length - (q + 1) + 1) :=
      List.drop_eq_getElem_cons hk
    have hidx : zs.length - (q + 1) + 1 = zs.length - q := by omega
    have hget : (famCaps s zs)[zs.length - (q + 1)]
        = (Box.cap (obsR ((zs.drop (zs.length - (q + 1))).take 1))
            ((zs.drop (zs.length - (q + 1))).take 1), s + (zs.length - (q + 1))) := by
      simp [famCaps]
    rw [hdrop, hidx, hget, List.cons_append]
    set w : Ty := (zs.drop (zs.length - (q + 1))).take 1 with hw
    have hwlen : w.length = 1 := slice_len_one zs _ hkz
    have hdomlen : (Box.cap (obsR w) w).dom.length = 0 := by
      simp [Box.dom]
    have hcodlen : (Box.cap (obsR w) w).cod.length = 2 := by
      simp [Box.cod, obsR, hwlen]
    have hne1 : ¬(((s + (zs.length - (q + 1)) : Nat) : Int)
          ≤ (s : Int) + 2 * ((zs.length - (q + 1) : Nat) : Int) - 1
        ∧ (s : Int) + 2 * ((zs.length - (q + 1) : Nat) : Int) - 1
          < ((s + (zs.length - (q + 1)) : Nat) : Int)
            + ((Box.cap (obsR w) w).dom.length : Int)) := by
      rw [hdomlen]
      omega
    have hle : ((s + (zs.length - (q + 1)) : Nat) : Int)
        ≤ (s : Int) + 2 * ((zs.length - (q + 1) : Nat) : Int) - 1 := by
      omega
    simp only [fwGo, if_neg hne1, if_pos hle]
    have harg : (s : Int) + 2 * ((zs.length - (q + 1) : Nat) : Int) - 1
          + ((Box.cap (obsR w) w).cod.length : Int)
          - ((Box.cap (obsR w) w).dom.length : Int)
        = (s : Int) + 2 * ((zs.length - q : Nat) : Int) - 1 := by
      rw [hdomlen, hcodlen]
      omega
    have hsucc : zs.length - (q + 1) + 1 = zs.length - q := by omega
    rw [hsucc, harg, ih hq']
    have hrange : List.range' (zs.length - (q + 1)) (q + 1)
        = (zs.length - (q + 1)) :: List.range' (zs.length - q) q := by
      rw [List.range'_succ, hsucc]
    rw [hrange]
end Discopy

namespace Discopy

theorem famCaps_off_ge (s : Nat) (zs : List Ob) :
    ∀ x ∈ famCaps s zs, s ≤ x.2 := by
  intro x hx
  simp only [famCaps, List.mem_map, List.mem_range] at hx
  obtain ⟨p, _, rfl⟩ := hx
  simp

theorem famCups_off_ge (s : Nat) (zs : List Ob) :
    ∀ x ∈ famCups s zs, s + zs.length ≤ x.2 := by
  intro x hx
  simp only [famCups, List.mem_map, List.mem_range] at hx
  obtain ⟨p, hp, rfl⟩ := hx
  simp only []
  omega

/-- Cons form of the family layer list. -/
theorem famLayers_cons (s : Nat) (z : Ob) (zs' : List Ob) :
    famLayers s (z :: zs')
      = (Box.cap (obsR [z]) [z], s) :: (famCaps (s + 1) zs' ++ famCups s (z :: zs')) := by
  simp [famLayers, famCaps_cons]

/-- The left-snake candidate on the family fails: the wire exits the
diagram. -/
theorem tryCand_family_left (dm cd : Ty) (s : Nat) (z : Ob) (zs' : List Ob) :
    tryCand ⟨dm, cd, famLayers s (z :: zs')⟩ 0 true (s : Int) = none := by
  have hdrop : (Diagram.mk dm cd (famLayers s (z :: zs'))).layers.drop (0 + 1)
      = famCaps (s + 1) zs' ++ famCups s (z :: zs') := by
    rw [famLayers_cons]
    rfl
  have hmem : ∀ p ∈ famCaps (s + 1) zs' ++ famCups s (z :: zs'), (s : Int) < (p.2 : Int) := by
    intro p hp
    rcases List.mem_append.mp hp with h | h
    · have := famCaps_off_ge (s + 1) zs' p h
      omega
    · have := famCups_off_ge s (z :: zs') p h
      simp only [List.length_cons] at this
      omega
  have hfw : followWire ⟨dm, cd, famLayers s (z :: zs')⟩ 0 (s : Int)
      = (0 + 1 + (famCaps (s + 1) zs' ++ famCups s (z :: zs')).length, (s : Int), [],
          List.range' (0 + 1) (famCaps (s + 1) zs' ++ famCups s (z :: zs')).length) := by
    unfold followWire
    rw [hdrop]
    exact fwGo_allRight _ _ _ hmem
  have hlen : 0 + 1 + (famCaps (s + 1) zs' ++ famCups s (z :: zs')).length
      = (famLayers s (z :: zs')).length := by
    rw [famLayers_length]
    simp only [List.length_append, famCaps_length, famCups_length, List.length_cons]
    omega
  simp only [tryCand, hfw, hlen]
  simp

/-- The right-snake candidate on the family succeeds and yields the cap
at index 0, the cup at index `|zs|`, and the remaining caps as left
obstructions. -/
theorem tryCand_family_right (dm cd : Ty) (s : Nat) (z : Ob) (zs' : List Ob) :
    tryCand ⟨dm, cd, famLayers s (z :: zs')⟩ 0 false ((s : Int) + 1)
      = some ((z :: zs').length, 0, (List.range' 1 ((z :: zs').length - 1), []), false) := by
  have hfw0 := fwGo_family s (z :: zs') ((z :: zs').length - 1) (by simp)
  rw [show (z :: zs').length - ((z :: zs').length - 1) = 1 from by simp] at hfw0
  have hco : (s : Int) + 2 * ((1 : Nat) : Int) - 1 = (s : Int) + 1 := by
    omega
  rw [hco] at hfw0
  have hdrop : (Diagram.mk dm cd (famLayers s (z :: zs'))).layers.drop (0 + 1)
      = (famCaps s (z :: zs')).drop 1 ++ famCups s (z :: zs') := by
    show (famLayers s (z :: zs')).drop 1 = _
    rw [famLayers]
    rw [List.drop_append_eq_append_drop]
    rw [show 1 - (famCaps s (z :: zs')).length = 0 from by
      rw [famCaps_length]; simp]
    rfl
  have hfw : followWire ⟨dm, cd, famLayers s (z :: zs')⟩ 0 ((s : Int) + 1)
      = ((z :: zs').length, (s : Int) + 2 * (((z :: zs').length : Nat) : Int) - 1,
          List.range' 1 ((z :: zs').length - 1), []) := by
    unfold followWire
    rw [hdrop]
    exact hfw0
  simp only [tryCand, hfw]
  have hcup : decide ((z :: zs').length
        = (Diagram.mk dm cd (famLayers s (z :: zs'))).layers.length) = false := by
    apply decide_eq_false
    simp only [famLayers_length, List.length_cons]
    omega
  have hbox : boxAt? ⟨dm, cd, famLayers s (z :: zs')⟩ (z :: zs').length
      = some (Box.cup [z] (obsR [z])) := by
    unfold boxAt?
    show (famLayers s (z :: zs'))[(z :: zs').length]?.map Prod.fst = _
    rw [famLayers, List.getElem?_append_right (by rw [famCaps_length])]
    rw [famCaps_length]
    simp only [List.length_cons, Nat.sub_self]
    rw [famCups_cons]
    simp
  have hoff : offAt ⟨dm, cd, famLayers s (z :: zs')⟩ (z :: zs').length
      = s + (2 * zs'.length + 1) := by
    unfold offAt
    show ((famLayers s (z :: zs'))[(z :: zs').length]?.map Prod.snd).getD 0 = _
    rw [famLayers, List.getElem?_append_right (by rw [famCaps_length])]
    rw [famCaps_length]
    simp only [List.length_cons, Nat.sub_self]
    rw [famCups_cons]
    simp
  have hwire : ((s + (2 * zs'.length + 1) : Nat) : Int)
      = (s : Int) + 2 * (((z :: zs').length : Nat) : Int) - 1 := by
    simp only [List.length_cons]
    omega
  simp only [hcup, hbox, hoff, hwire]
  simp [Box.isCup]

/-- `find_snake` on the family diagram returns the right snake at the
head cap. -/
theorem findSnake_family (dm cd : Ty) (s : Nat) (z : Ob) (zs' : List Ob) :
    findSnake ⟨dm, cd, famLayers s (z :: zs')⟩
      = some ((z :: zs').length, 0, (List.range' 1 ((z :: zs').length - 1), []), false) := by
  unfold findSnake
  have hlen : (Diagram.mk dm cd (famLayers s (z :: zs'))).layers.length
      = (2 * (z :: zs').length - 1) + 1 := by
    show (famLayers s (z :: zs')).length = _
    rw [famLayers_length]
    simp only [List.length_cons]
    omega
  rw [hlen, List.range_succ_eq_map]
  have h0 : (Diagram.mk dm cd (famLayers s (z :: zs'))).layers[0]?
      = some (Box.cap (obsR [z]) [z], s) := by
    show (famLayers s (z :: zs'))[0]? = _
    rw [famLayers_cons]
    simp
  simp only [fsGo, h0, Box.isCap, if_true]
  rw [tryCand_family_left, tryCand_family_right]

end Discopy

namespace Discopy

theorem set_at_append {α : Type} (T : List α) (x a : α) (rest : List α) :
    (T ++ x :: rest).set T.length a = T ++ a :: rest := by
  induction T with
  | nil => rfl
  | cons h t ih => simp [List.set_cons_succ, ih]

theorem set_at_append_succ {α : Type} (T : List α) (x y a : α) (rest : List α) :
    (T ++ x :: y :: rest).set (T.length + 1) a = T ++ x :: a :: rest := by
  induction T with
  | nil => rfl
  | cons h t ih => simp [List.set_cons_succ, ih]

/-- Adjacent interchange at the seam of a decomposed layer list, in the
upper-moves-right case. -/
theorem interchangeAdj_mid (dm cd : Ty) (T rest : List Layer) (b0 b1 : Box) (o0 o1 : Nat)
    (h1 : ¬(o1 + b1.dom.length ≤ o0)) (h2 : o0 + b0.cod.length ≤ o1) :
    interchangeAdj ⟨dm, cd, T ++ (b0, o0) :: (b1, o1) :: rest⟩ T.length
      = some ⟨dm, cd, T ++ (b1, o1 + b0.dom.length - b0.cod.length) :: (b0, o0) :: rest⟩ := by
  have hx : (T ++ (b0, o0) :: (b1, o1) :: rest)[T.length]? = some (b0, o0) := by
    rw [List.getElem?_append_right (le_refl T.length)]
    simp
  have hy : (T ++ (b0, o0) :: (b1, o1) :: rest)[T.length + 1]? = some (b1, o1) := by
    rw [List.getElem?_append_right (by omega : T.length ≤ T.length + 1)]
    rw [show T.length + 1 - T.length = 1 from by omega]
    simp
  unfold interchangeAdj
  simp only [hx, hy]
  rw [if_neg h1, if_pos h2]
  rw [set_at_append, set_at_append_succ]

theorem famMid_length (s i : Nat) (zs : List Ob) (hi : i ≤ zs.length) (hz : zs ≠ []) :
    (famMid s zs i).length = 2 * zs.length := by
  have hm : 0 < zs.length := List.length_pos.mpr hz
  simp only [famMid, List.length_append, List.length_take, List.length_drop,
    List.length_cons, List.length_nil, famCaps_length, famCups_length]
  have hmin : min (zs.length - i) zs.length = zs.length - i := Nat.min_eq_left (by omega)
  rw [hmin]
  omega

/-- One interchange of the snake-elimination loop on the family: the cup
bubbles one step closer to the cap. -/
theorem famMid_step (dm cd : Ty) (s : Nat) (zs : List Ob) (ρ ι : Nat)
    (hsum : ρ + 2 + ι = zs.length) :
    interchangeGen ⟨dm, cd, famMid s zs ι⟩ (ρ + 1) (ρ + 1 + 1)
      = some ⟨dm, cd, famMid s zs (ι + 1)⟩ := by
  have hz : zs ≠ [] := by
    intro h
    rw [h] at hsum
    simp at hsum
  have hρ1 : ρ + 1 < zs.length := by omega
  have hρ1c : ρ + 1 < (famCaps s zs).length := by rw [famCaps_length]; omega
  have htake : (famCaps s zs).take (zs.length - ι)
      = (famCaps s zs).take (ρ + 1) ++ [(famCaps s zs)[ρ + 1]] := by
    rw [show zs.length - ι = (ρ + 1) + 1 from by omega]
    rw [← List.take_concat_get _ _ hρ1c, List.concat_eq_append]
  have hget : (famCaps s zs)[ρ + 1]
      = (Box.cap (obsR ((zs.drop (ρ + 1)).take 1)) ((zs.drop (ρ + 1)).take 1), s + (ρ + 1)) := by
    simp [famCaps]
  set w : Ty := (zs.drop (ρ + 1)).take 1 with hw
  have hwlen : w.length = 1 := slice_len_one zs _ hρ1
  have hvlen : (zs.take 1).length = 1 := by
    rw [List.length_take]
    omega
  have hdecomp : famMid s zs ι
      = (famCaps s zs).take (ρ + 1)
        ++ (Box.cap (obsR w) w, s + (ρ + 1))
          :: (Box.cup (zs.take 1) (obsR (zs.take 1)), s + (2 * zs.length - 1 - 2 * ι))
          :: ((famCaps s zs).drop (zs.length - ι) ++ (famCups s zs).drop 1) := by
    rw [famMid, htake, hget]
    simp [List.append_assoc]
  have hdecomp' : famMid s zs (ι + 1)
      = (famCaps s zs).take (ρ + 1)
        ++ (Box.cup (zs.take 1) (obsR (zs.take 1)), s + (2 * zs.length - 1 - 2 * (ι + 1)))
          :: (Box.cap (obsR w) w, s + (ρ + 1))
          :: ((famCaps s zs).drop (zs.length - ι) ++ (famCups s zs).drop 1) := by
    rw [famMid, show zs.length - (ι + 1) = ρ + 1 from by omega]
    rw [show (famCaps s zs).drop (ρ + 1)
        = (famCaps s zs)[ρ + 1] :: (famCaps s zs).drop (zs.length - ι) from by
      rw [List.drop_eq_getElem_cons hρ1c]
      rw [show ρ + 1 + 1 = zs.length - ι from by omega]]
    rw [hget]
    simp [List.append_assoc]
  have hTlen : ((famCaps s zs).take (ρ + 1)).length = ρ + 1 := by
    rw [List.length_take, famCaps_length]
    omega
  have hmlen : (famMid s zs ι).length = 2 * zs.length := famMid_length s ι zs (by omega) hz
  unfold interchangeGen
  rw [if_neg (by
    show ¬((Diagram.mk dm cd (famMid s zs ι)).layers.length ≤ ρ + 1
      ∨ (Diagram.mk dm cd (famMid s zs ι)).layers.length ≤ ρ + 1 + 1)
    show ¬((famMid s zs ι).length ≤ ρ + 1 ∨ (famMid s zs ι).length ≤ ρ + 1 + 1)
    rw [hmlen]
    omega)]
  rw [if_neg (by omega : ¬(ρ + 1 = ρ + 1 + 1))]
  rw [if_pos (by omega : ρ + 1 < ρ + 1 + 1)]
  rw [show ρ + 1 + 1 - (ρ + 1) = 1 from by omega]
  show (interchangeAdj ⟨dm, cd, famMid s zs ι⟩ (ρ + 1)).bind
      (fun d' => bubbleDown d' (ρ + 1 + 1) 0) = _
  have hadj : interchangeAdj ⟨dm, cd, famMid s zs ι⟩ (ρ + 1)
      = some ⟨dm, cd, famMid s zs (ι + 1)⟩ := by
    rw [hdecomp, hdecomp']
    have hmid := interchangeAdj_mid dm cd ((famCaps s zs).take (ρ + 1))
      ((famCaps s zs).drop (zs.length - ι) ++ (famCups s zs).drop 1)
      (Box.cap (obsR w) w) (Box.cup (zs.take 1) (obsR (zs.take 1)))
      (s + (ρ + 1)) (s + (2 * zs.length - 1 - 2 * ι))
      (by
        show ¬(s + (2 * zs.length - 1 - 2 * ι) + (zs.take 1 ++ obsR (zs.take 1)).length
          ≤ s + (ρ + 1))
        rw [List.length_append, hvlen, show (obsR (zs.take 1)).length = 1 from by
          rw [obsR, List.length_map]; exact hvlen]
        omega)
      (by
        show s + (ρ + 1) + (obsR w ++ w).length ≤ s + (2 * zs.length - 1 - 2 * ι)
        rw [List.length_append, hwlen, show (obsR w).length = 1 from by
          rw [obsR, List.length_map]; exact hwlen]
        omega)
    rw [hTlen] at hmid
    rw [hmid]
    have hoffs : s + (2 * zs.length - 1 - 2 * ι)
          + (Box.cap (obsR w) w).dom.length - (Box.cap (obsR w) w).cod.length
        = s + (2 * zs.length - 1 - 2 * (ι + 1)) := by
      have hd : (Box.cap (obsR w) w).dom.length = 0 := by simp [Box.dom]
      have hc : (Box.cap (obsR w) w).cod.length = 2 := by
        simp [Box.cod, obsR, hwlen]
      rw [hd, hc]
      omega
    rw [hoffs]
  rw [hadj]
  rfl

/-- The first loop of the right-snake elimination on the family: the
remaining obstruction indices, processed farthest first, emit the
successive partially-bubbled diagrams. -/
theorem usR1_family (dm cd : Ty) (s : Nat) (zs : List Ob) :
    ∀ ρ ι, ρ + ι + 1 = zs.length →
    usR1 ⟨dm, cd, famMid s zs ι⟩ (ρ + 1) ((List.range' 1 ρ).reverse) []
      = some ((List.range' (ι + 1) ρ).map fun p => (⟨dm, cd, famMid s zs p⟩ : Diagram),
          ⟨dm, cd, famMid s zs (zs.length - 1)⟩, 1, []) := by
  intro ρ
  induction ρ with
  | zero =>
    intro ι h
    rw [show ι = zs.length - 1 from by omega]
    rfl
  | succ ρ ih =>
    intro ι h
    have hrev : (List.range' 1 (ρ + 1)).reverse = (ρ + 1) :: (List.range' 1 ρ).reverse := by
      rw [List.range'_concat, List.reverse_append]
      simp [Nat.add_comm]
    rw [hrev]
    show (interchangeGen ⟨dm, cd, famMid s zs ι⟩ (ρ + 1) (ρ + 1 + 1)).bind _ = _
    rw [famMid_step dm cd s zs ρ ι (by omega)]
    simp only [Option.some_bind]
    rw [show ρ + 1 + 1 - 1 = ρ + 1 from rfl]
    rw [show reindexR [] (ρ + 1) = [] from rfl]
    rw [ih (ι + 1) (by omega)]
    simp only [Option.map_some']
    rw [List.range'_succ]
    rfl

end Discopy

namespace Discopy

/-- Before any interchange the partially-bubbled list is the family
itself. -/
theorem famMid_zero (s : Nat) (z : Ob) (zs' : List Ob) :
    famMid s (z :: zs') 0 = famLayers s (z :: zs') := by
  unfold famMid famLayers
  rw [Nat.sub_zero]
  rw [show 2 * (z :: zs').length - 1 - 2 * 0 = 2 * zs'.length + 1 from by
    simp only [List.length_cons]
    omega]
  rw [List.take_of_length_le (by rw [famCaps_length])]
  rw [List.drop_eq_nil_of_le (by rw [famCaps_length])]
  rw [famCups_cons]
  simp

/-- After all interchanges the cap and cup are adjacent at the head and
the tail is the shifted family over the rest. -/
theorem famMid_last (s : Nat) (z : Ob) (zs' : List Ob) :
    famMid s (z :: zs') zs'.length
      = (Box.cap (obsR [z]) [z], s)
        :: (Box.cup [z] (obsR [z]), s + 1) :: famLayers (s + 1) zs' := by
  unfold famMid
  rw [show (z :: zs').length - zs'.length = 1 from by simp]
  rw [show 2 * (z :: zs').length - 1 - 2 * zs'.length = 1 from by
    simp only [List.length_cons]
    omega]
  rw [famCaps_cons, famCups_cons]
  simp [famLayers]

/-- One full snake elimination on the family: each interchange emits a
partially-bubbled diagram, then the splice removes the adjacent cap and
cup, leaving the family over the remaining objects with offsets shifted
by one. -/
theorem unsnake_family (dm cd : Ty) (s : Nat) (z : Ob) (zs' : List Ob) :
    unsnake ⟨dm, cd, famLayers s (z :: zs')⟩ (z :: zs').length 0
      (List.range' 1 ((z :: zs').length - 1)) [] false
      = some (((List.range' 1 zs'.length).map
            fun p => (⟨dm, cd, famMid s (z :: zs') p⟩ : Diagram))
          ++ [⟨dm, cd, famLayers (s + 1) zs'⟩]) := by
  unfold unsnake
  rw [if_neg Bool.false_ne_true]
  rw [show famLayers s (z :: zs') = famMid s (z :: zs') 0 from (famMid_zero s z zs').symm]
  rw [show (z :: zs').length = zs'.length + 1 from by simp]
  rw [show zs'.length + 1 - 1 = zs'.length from rfl]
  rw [usR1_family dm cd s (z :: zs') zs'.length 0 (by simp)]
  simp only [Option.some_bind]
  show (usR2 ⟨dm, cd, famMid s (z :: zs') ((z :: zs').length - 1)⟩ 0 []).map _ = _
  rw [show usR2 ⟨dm, cd, famMid s (z :: zs') ((z :: zs').length - 1)⟩ 0 []
      = some ([], ⟨dm, cd, famMid s (z :: zs') ((z :: zs').length - 1)⟩, 0) from rfl]
  simp only [Option.map_some']
  congr 1
  rw [show (z :: zs').length - 1 = zs'.length from by simp]
  have hsp : spliceOut ⟨dm, cd, famMid s (z :: zs') zs'.length⟩ 0 1
      = ⟨dm, cd, famLayers (s + 1) zs'⟩ := by
    unfold spliceOut
    rw [show (Diagram.mk dm cd (famMid s (z :: zs') zs'.length)).layers
        = famMid s (z :: zs') zs'.length from rfl]
    rw [famMid_last]
    rfl
  rw [hsp]
  simp

/-- The snake-removal loop drains the whole family, eliminating one
cap/cup pair per round, and its last emitted diagram has no layers. -/
theorem snakeLoop_family (dm cd : Ty) : ∀ (zs : List Ob) (s fuel : Nat),
    zs.length + 1 ≤ fuel →
    ∃ steps, snakeLoop fuel ⟨dm, cd, famLayers s zs⟩ = some steps
      ∧ steps.getLastD ⟨dm, cd, famLayers s zs⟩ = ⟨dm, cd, ([] : List Layer)⟩ := by
  intro zs
  induction zs with
  | nil =>
    intro s fuel hf
    obtain ⟨f', rfl⟩ : ∃ f', fuel = f' + 1 := ⟨fuel - 1, by omega⟩
    exact ⟨[], rfl, rfl⟩
  | cons z zs' ih =>
    intro s fuel hf
    obtain ⟨f', rfl⟩ : ∃ f', fuel = f' + 1 := ⟨fuel - 1, by omega⟩
    obtain ⟨rest, hrest, hlast⟩ := ih (s + 1) f' (by
      simp only [List.length_cons] at hf
      omega)
    refine ⟨(((List.range' 1 zs'.length).map
          fun p => (⟨dm, cd, famMid s (z :: zs') p⟩ : Diagram))
        ++ [⟨dm, cd, famLayers (s + 1) zs'⟩]) ++ rest, ?_, ?_⟩
    · show snakeLoop (f' + 1) ⟨dm, cd, famLayers s (z :: zs')⟩ = _
      rw [snakeLoop, findSnake_family dm cd s z zs']
      show (unsnake ⟨dm, cd, famLayers s (z :: zs')⟩ (z :: zs').length 0
          (List.range' 1 ((z :: zs').length - 1)) [] false).bind _ = _
      rw [unsnake_family dm cd s z zs']
      simp only [Option.some_bind]
      rw [List.getLast?_concat]
      show (snakeLoop f' ⟨dm, cd, famLayers (s + 1) zs'⟩).map _ = _
      rw [hrest]
      rfl
    · rw [List.getLastD_eq_getLast?, List.getLast?_append]
      cases hre : rest.getLast? with
      | none =>
        rw [List.getLast?_concat, Option.none_or, Option.getD_some]
        rw [List.getLastD_eq_getLast?, hre] at hlast
        simpa using hlast
      | some x =>
        rw [Option.or_some, Option.getD_some]
        rw [List.getLastD_eq_getLast?, hre] at hlast
        simpa using hlast

end Discopy

namespace Discopy

/-- C1: the claim as stated is false: for `t = [n]`, normalizing
`transpose(id(t))` terminates, but `normal_form` returns the identity on
`t.r` (winding number 1), not the identity on `t`. -/
theorem c1_counterexample :
    (transposeD (idD [Ob.mk "n" 0])).bind normalForm = some (idD [Ob.mk "n" 1])
      ∧ (transposeD (idD [Ob.mk "n" 0])).bind normalForm ≠ some (idD [Ob.mk "n" 0]) := by
  decide

/-- C1 (amended): snake law up to duality: for every type `t`, the
transpose of the identity on `t` is built, its normalization sequence
terminates, and its final element — hence `normal_form` — is the
identity on `t.r` (not on `t`). -/
theorem c1_snake_law (t : Ty) :
    ∃ (D : Diagram) (steps : List Diagram),
      transposeD (idD t) = some D
        ∧ normalizeSteps D = some steps
        ∧ steps.getLastD D = idD (tyR t)
        ∧ normalForm D = some (idD (tyR t)) := by
  obtain ⟨steps, hs, hl⟩ := snakeLoop_family (tyR t) (tyR t) t.reverse 0
    ((famLayers 0 t.reverse).length + 1) (by rw [famLayers_length]; omega)
  have hns : normalizeSteps ⟨tyR t, tyR t, famLayers 0 t.reverse⟩ = some steps := by
    unfold normalizeSteps
    show (snakeLoop ((famLayers 0 t.reverse).length + 1)
        ⟨tyR t, tyR t, famLayers 0 t.reverse⟩).map _ = _
    rw [hs]
    simp [monoidalFlattenSteps]
  refine ⟨⟨tyR t, tyR t, famLayers 0 t.reverse⟩, steps, transposeD_idD t, hns, hl, ?_⟩
  unfold normalForm
  rw [hns]
  simp only [Option.map_some']
  rw [hl]
  rfl

end Discopy
